import Mathlib

/-!
Verification of the opencode-repos plugin (manifest store, git acquisition
engine, orchestration layer) against its natural-language specification.
The TypeScript sources are shallowly embedded: JavaScript values flowing
through `JSON.parse`/`JSON.stringify` become an inductive `JVal`, records
become structures, effectful functions become explicit state passing, and
the external git tool becomes an oracle recording the effects performed.
-/

set_option maxHeartbeats 1000000
set_option maxRecDepth 100000

namespace OpencodeRepos

/-! ## JavaScript/JSON value model

`JVal` models the values produced by `JSON.parse` (no `undefined`: an
absent object key models a field holding `undefined`, which behaves the
same under every `typeof` test and under `JSON.stringify` in this code). -/

inductive JVal where
  | jnull
  | jbool (b : Bool)
  | jnum (n : Int)
  | jstr (s : String)
  | jarr (elems : List JVal)
  | jobj (fields : List (String × JVal))

/-- JS property read `value[key]` for a named (non-index) key: only plain
objects carry named properties here; on arrays and primitives the named
reads performed by `manifest.ts` yield `undefined`. -/
def jget (v : JVal) (key : String) : Option JVal :=
  match v with
  | .jobj fields => fields.lookup key
  | _ => none

/-- `value && typeof value === "object"` for the values `JSON.parse` can
produce: `null` is falsy, arrays and objects pass, primitives fail. -/
def jsTruthyObject (v : JVal) : Bool :=
  match v with
  | .jobj _ => true
  | .jarr _ => true
  | _ => false

/-- `Object.entries(value)` for an object (arrays yield index keys;
`manifest.ts` only reaches this after a `typeof === "object"` check). -/
def jentries (v : JVal) : List (String × JVal) :=
  match v with
  | .jobj fields => fields
  | .jarr elems => (elems.enum).map (fun p => (toString p.1, p.2))
  | _ => []

/-! ## Manifest data model (src/manifest.ts) -/

inductive EntryType where
  | cached
  | local
deriving DecidableEq, Repr

structure RepoEntry where
  type : EntryType
  path : String
  currentBranch : String
  lastAccessed : String
  clonedAt : Option String := none
  lastUpdated : Option String := none
  sizeBytes : Option Int := none
  shallow : Option Bool := none
  remote : Option String := none
deriving DecidableEq, Repr

structure Manifest where
  version : Nat
  repos : List (String × RepoEntry)
  localIndex : List (String × String)
deriving DecidableEq, Repr

def createEmptyManifest : Manifest :=
  { version := 1, repos := [], localIndex := [] }

/-- JS object property assignment `record[key] = value`: an existing key
keeps its position and receives the new value, a new key is appended. -/
def recordSet (m : List (String × α)) (k : String) (v : α) : List (String × α) :=
  match m with
  | [] => [(k, v)]
  | (k', v') :: rest => if k' = k then (k, v) :: rest else (k', v') :: recordSet rest k v

/-- `normalizeRepoEntry` from src/manifest.ts. `now` is the value of
`new Date().toISOString()` at the call. -/
def normalizeRepoEntry (now : String) (value : JVal) : Option RepoEntry :=
  if jsTruthyObject value then
    match jget value "type", jget value "path" with
    | some (.jstr t), some (.jstr pathStr) =>
      if t = "cached" ∨ t = "local" then
        some {
          type := if t = "cached" then .cached else .local
          path := pathStr
          currentBranch :=
            match jget value "currentBranch" with
            | some (.jstr s) => if s ≠ "" then s else "main"
            | _ => "main"
          lastAccessed :=
            match jget value "lastAccessed" with
            | some (.jstr s) => if s ≠ "" then s else now
            | _ => now
          clonedAt :=
            match jget value "clonedAt" with
            | some (.jstr s) => some s
            | _ => none
          lastUpdated :=
            match jget value "lastUpdated" with
            | some (.jstr s) => some s
            | _ => none
          sizeBytes :=
            match jget value "sizeBytes" with
            | some (.jnum n) => some n
            | _ => none
          shallow :=
            match jget value "shallow" with
            | some (.jbool b) => some b
            | _ => none
          remote :=
            match jget value "remote" with
            | some (.jstr s) => some s
            | _ => none
        }
      else none
    | _, _ => none
  else none

/-- The `repos` accumulation loop of `normalizeManifest`. -/
def normalizeReposAux (now : String) (acc : List (String × RepoEntry)) :
    List (String × JVal) → List (String × RepoEntry)
  | [] => acc
  | (key, entryValue) :: rest =>
    match normalizeRepoEntry now entryValue with
    | some entry => normalizeReposAux now (recordSet acc key entry) rest
    | none => normalizeReposAux now acc rest

/-- The `localIndex` accumulation loop of `normalizeManifest`. -/
def normalizeLocalIndexAux (acc : List (String × String)) :
    List (String × JVal) → List (String × String)
  | [] => acc
  | (remote, pathValue) :: rest =>
    match pathValue with
    | .jstr path => normalizeLocalIndexAux (recordSet acc remote path) rest
    | _ => normalizeLocalIndexAux acc rest

/-- `normalizeManifest` from src/manifest.ts. -/
def normalizeManifest (now : String) (value : JVal) : Manifest :=
  if jsTruthyObject value then
    let reposValue := jget value "repos"
    let localIndexValue := jget value "localIndex"
    let repos :=
      match reposValue with
      | some rv => if jsTruthyObject rv then normalizeReposAux now [] (jentries rv) else []
      | none => []
    let localIndex :=
      match localIndexValue with
      | some lv => if jsTruthyObject lv then normalizeLocalIndexAux [] (jentries lv) else []
      | none => []
    { version := 1, repos := repos, localIndex := localIndex }
  else
    createEmptyManifest

/-! ## Serialization: the manifest as the JS object / JSON document

`JSON.stringify` writes object keys in insertion order and omits
`undefined`-valued fields; `JSON.parse` of the produced text restores the
same `JVal`.  `repoEntryToJVal` is the object literal built by
`normalizeRepoEntry` (its key order), with `undefined` optional fields
omitted. -/

def entryTypeStr : EntryType → String
  | .cached => "cached"
  | .local => "local"

def optStrField (key : String) (v : Option String) : List (String × JVal) :=
  match v with
  | some s => [(key, .jstr s)]
  | none => []

def optNumField (key : String) (v : Option Int) : List (String × JVal) :=
  match v with
  | some n => [(key, .jnum n)]
  | none => []

def optBoolField (key : String) (v : Option Bool) : List (String × JVal) :=
  match v with
  | some b => [(key, .jbool b)]
  | none => []

def repoEntryToJVal (e : RepoEntry) : JVal :=
  .jobj ([("type", .jstr (entryTypeStr e.type)),
          ("path", .jstr e.path),
          ("currentBranch", .jstr e.currentBranch),
          ("lastAccessed", .jstr e.lastAccessed)]
    ++ optStrField "clonedAt" e.clonedAt
    ++ optStrField "lastUpdated" e.lastUpdated
    ++ optNumField "sizeBytes" e.sizeBytes
    ++ optBoolField "shallow" e.shallow
    ++ optStrField "remote" e.remote)

def manifestToJVal (m : Manifest) : JVal :=
  .jobj [("version", .jnum m.version),
         ("repos", .jobj (m.repos.map (fun p => (p.1, repoEntryToJVal p.2)))),
         ("localIndex", .jobj (m.localIndex.map (fun p => (p.1, .jstr p.2))))]

/-- State of the persisted manifest document on disk. -/
inductive FileState where
  | absent
  | invalidJson (content : String)
  | json (v : JVal)

/-- `loadManifest` from src/manifest.ts: absent file or a `JSON.parse`
failure is absorbed into the empty manifest. -/
def loadManifest (fs : FileState) (now : String) : Manifest :=
  match fs with
  | .absent => createEmptyManifest
  | .invalidJson _ => createEmptyManifest
  | .json v => normalizeManifest now v

/-- `saveManifest` from src/manifest.ts: normalizes, serializes to the
temporary sibling and atomically renames; the resulting document is the
JSON of the normalized manifest. -/
def saveManifest (m : Manifest) (now : String) : FileState :=
  .json (manifestToJVal (normalizeManifest now (manifestToJVal m)))

/-- Well-formedness of an in-memory `Manifest` as claimed: version 1,
repository keys unique (JS object keys), entries with non-empty
`currentBranch` and `lastAccessed`, localIndex keys unique. The valid type
tag and string-typed fields are enforced by the Lean types. -/
def wellFormedManifest (m : Manifest) : Prop :=
  m.version = 1 ∧
  (m.repos.map Prod.fst).Nodup ∧
  (∀ p ∈ m.repos, p.2.currentBranch ≠ "" ∧ p.2.lastAccessed ≠ "") ∧
  (m.localIndex.map Prod.fst).Nodup

instance (m : Manifest) : Decidable (wellFormedManifest m) := by
  unfold wellFormedManifest
  infer_instance

/-- The claim's notion of a persisted document that is a well-formed
Manifest entry, following the claim's words: valid type tag, string path,
non-empty `currentBranch` and `lastAccessed`. -/
def specWellFormedEntryJson (v : JVal) : Bool :=
  match v with
  | .jobj fields =>
    (match fields.lookup "type" with
     | some (.jstr t) => t = "cached" || t = "local"
     | _ => false) &&
    (match fields.lookup "path" with
     | some (.jstr _) => true
     | _ => false) &&
    (match fields.lookup "currentBranch" with
     | some (.jstr s) => s ≠ ""
     | _ => false) &&
    (match fields.lookup "lastAccessed" with
     | some (.jstr s) => s ≠ ""
     | _ => false)
  | _ => false

/-- The claim's notion of a persisted JSON document that is a well-formed
Manifest object (version 1, a repos map of well-formed entries, a
localIndex mapping strings to strings), following the claim's words. -/
def specWellFormedManifestJson (v : JVal) : Bool :=
  match v with
  | .jobj fields =>
    (match fields.lookup "version" with
     | some (.jnum n) => n = 1
     | _ => false) &&
    (match fields.lookup "repos" with
     | some (.jobj entries) => entries.all (fun p => specWellFormedEntryJson p.2)
     | _ => false) &&
    (match fields.lookup "localIndex" with
     | some (.jobj pairs) => pairs.all (fun p => match p.2 with | .jstr _ => true | _ => false)
     | _ => false)
  | _ => false

def JVal.isJObj : JVal → Bool
  | .jobj _ => true
  | _ => false

/-! ## Round-trip lemmas for the manifest store -/

lemma recordSet_eq_append {α : Type} (acc : List (String × α)) (k : String) (v : α)
    (h : k ∉ acc.map Prod.fst) : recordSet acc k v = acc ++ [(k, v)] := by
  induction acc with
  | nil => rfl
  | cons p rest ih =>
    simp only [List.map_cons, List.mem_cons] at h
    push_neg at h
    simp only [recordSet]
    rw [if_neg (Ne.symm h.1), ih h.2]
    simp

lemma normalizeRepoEntry_roundtrip (now : String) (e : RepoEntry)
    (h1 : e.currentBranch ≠ "") (h2 : e.lastAccessed ≠ "") :
    normalizeRepoEntry now (repoEntryToJVal e) = some e := by
  obtain ⟨ty, p, cb, la, ca, lu, sb, sh, rm⟩ := e
  simp only [RepoEntry.currentBranch] at h1
  simp only [RepoEntry.lastAccessed] at h2
  cases ty <;> cases ca <;> cases lu <;> cases sb <;> cases sh <;> cases rm <;>
    simp [normalizeRepoEntry, repoEntryToJVal, jget, jsTruthyObject, entryTypeStr,
      optStrField, optNumField, optBoolField, List.lookup, h1, h2]

lemma normalizeReposAux_roundtrip (now : String) :
    ∀ (repos acc : List (String × RepoEntry)),
    (repos.map Prod.fst).Nodup →
    (∀ k ∈ acc.map Prod.fst, k ∉ repos.map Prod.fst) →
    (∀ p ∈ repos, p.2.currentBranch ≠ "" ∧ p.2.lastAccessed ≠ "") →
    normalizeReposAux now acc (repos.map (fun p => (p.1, repoEntryToJVal p.2))) =
      acc ++ repos := by
  intro repos
  induction repos with
  | nil => intro acc _ _ _; simp [normalizeReposAux]
  | cons p rest ih =>
    intro acc hN hd hwf
    obtain ⟨k, e⟩ := p
    have he := hwf (k, e) (List.mem_cons_self _ _)
    simp only [List.map_cons, normalizeReposAux,
      normalizeRepoEntry_roundtrip now e he.1 he.2]
    have hk : k ∉ acc.map Prod.fst := fun hk => hd k hk (by simp)
    rw [recordSet_eq_append acc k e hk]
    simp only [List.map_cons, List.nodup_cons] at hN
    rw [ih (acc ++ [(k, e)]) hN.2 ?_ (fun q hq => hwf q (List.mem_cons_of_mem _ hq))]
    · simp
    · intro k' hk' hmem
      simp only [List.map_append, List.mem_append, List.map_cons] at hk'
      rcases hk' with h | h
      · exact hd k' h (by simp [hmem])
      · simp at h
        subst h
        exact hN.1 hmem

lemma normalizeLocalIndexAux_roundtrip :
    ∀ (idx acc : List (String × String)),
    (idx.map Prod.fst).Nodup →
    (∀ k ∈ acc.map Prod.fst, k ∉ idx.map Prod.fst) →
    normalizeLocalIndexAux acc (idx.map (fun p => (p.1, JVal.jstr p.2))) =
      acc ++ idx := by
  intro idx
  induction idx with
  | nil => intro acc _ _; simp [normalizeLocalIndexAux]
  | cons p rest ih =>
    intro acc hN hd
    obtain ⟨k, s⟩ := p
    simp only [List.map_cons, normalizeLocalIndexAux]
    have hk : k ∉ acc.map Prod.fst := fun hk => hd k hk (by simp)
    rw [recordSet_eq_append acc k s hk]
    simp only [List.map_cons, List.nodup_cons] at hN
    rw [ih (acc ++ [(k, s)]) hN.2 ?_]
    · simp
    · intro k' hk' hmem
      simp only [List.map_append, List.mem_append, List.map_cons] at hk'
      rcases hk' with h | h
      · exact hd k' h (by simp [hmem])
      · simp at h
        subst h
        exact hN.1 hmem

lemma normalizeManifest_roundtrip (now : String) (m : Manifest)
    (hwf : wellFormedManifest m) :
    normalizeManifest now (manifestToJVal m) = m := by
  obtain ⟨hv, hN, hrepos, hNl⟩ := hwf
  simp only [normalizeManifest, manifestToJVal, jsTruthyObject, jget, List.lookup, jentries,
    String.reduceBEq, if_true]
  rw [normalizeReposAux_roundtrip now m.repos [] hN (by simp) hrepos]
  rw [normalizeLocalIndexAux_roundtrip m.localIndex [] hNl (by simp)]
  simp only [List.nil_append]
  cases m
  simp_all

/-- C1: for every well-formed Manifest, `saveManifest` followed by
`loadManifest` returns a Manifest deep-equal to the saved one, for any
save-time and load-time clocks, including empty maps. -/
theorem c1_save_then_load_roundtrip (m : Manifest) (hwf : wellFormedManifest m)
    (now now' : String) :
    loadManifest (saveManifest m now) now' = m := by
  simp only [saveManifest, loadManifest]
  rw [normalizeManifest_roundtrip now m hwf, normalizeManifest_roundtrip now' m hwf]

/-- Witness for C1 at a concrete manifest with one cached and one local
entry, a localIndex pair, and at the empty manifest. -/
theorem c1_save_then_load_roundtrip_witness :
    (let m : Manifest :=
      { version := 1
        repos := [("acme/widgets",
                    { type := .cached, path := "/cache/acme/widgets",
                      currentBranch := "trunk", lastAccessed := "2026-01-01",
                      clonedAt := some "2026-01-01", lastUpdated := some "2026-01-02",
                      sizeBytes := some 4096, shallow := some true,
                      remote := some "git@github.com:acme/widgets.git" }),
                   ("me/tools",
                    { type := .local, path := "/home/me/tools",
                      currentBranch := "main", lastAccessed := "2026-01-03" })]
        localIndex := [("git@github.com:me/tools.git", "/home/me/tools")] }
     loadManifest (saveManifest m "T1") "T2" = m) ∧
    loadManifest (saveManifest createEmptyManifest "T1") "T2" = createEmptyManifest := by
  constructor
  · exact c1_save_then_load_roundtrip _ (by decide) "T1" "T2"
  · exact c1_save_then_load_roundtrip _ (by decide) "T1" "T2"

/-- C2 (counterexample): a persisted JSON document that is not a
well-formed Manifest object (its version is 99 and its entry lacks the
timestamp fields) on which `loadManifest` returns a non-empty manifest
rather than the empty one. -/
theorem c2_counterexample :
    (specWellFormedManifestJson
        (.jobj [("version", .jnum 99),
                ("repos", .jobj [("x", .jobj [("type", .jstr "cached"),
                                              ("path", .jstr "p")])]),
                ("localIndex", .jobj [])]) = false) ∧
    loadManifest
        (.json (.jobj [("version", .jnum 99),
                       ("repos", .jobj [("x", .jobj [("type", .jstr "cached"),
                                                     ("path", .jstr "p")])]),
                       ("localIndex", .jobj [])])) "NOW"
      ≠ createEmptyManifest := by
  constructor
  · rfl
  · decide

/-- C2 (amended): `loadManifest` never raises (it is total); an absent
file, unparseable content, or parseable JSON that is not an object yields
the empty Manifest; a parseable JSON object is instead normalized
best-effort and may load as a non-empty manifest even when the document is
not a well-formed Manifest object. -/
theorem c2_load_absorbs_corruption (now s : String) (v : JVal)
    (h : v.isJObj = false) :
    loadManifest .absent now = createEmptyManifest ∧
    loadManifest (.invalidJson s) now = createEmptyManifest ∧
    loadManifest (.json v) now = createEmptyManifest := by
  refine ⟨rfl, rfl, ?_⟩
  cases v <;> simp_all [loadManifest, normalizeManifest, jsTruthyObject, jget,
    JVal.isJObj, createEmptyManifest]

/-- Witness for C2 (amended) at a concrete non-object JSON document. -/
theorem c2_load_absorbs_corruption_witness :
    loadManifest .absent "NOW" = createEmptyManifest ∧
    loadManifest (.invalidJson "not valid json") "NOW" = createEmptyManifest ∧
    loadManifest (.json (.jnum 5)) "NOW" = createEmptyManifest :=
  c2_load_absorbs_corruption "NOW" "not valid json" (.jnum 5) rfl

/-! ## parseRepoSpec (src/git.ts)

JS strings are modelled as `List Char`; `String.prototype.indexOf` of a
single character becomes `strIndexOf`. -/

/-- `s.indexOf(c)`: index of the first occurrence, `none` for `-1`. -/
def strIndexOf : List Char → Char → Option Nat
  | [], _ => none
  | c :: rest, target =>
    if c = target then some 0 else (strIndexOf rest target).map (· + 1)

structure RepoSpec where
  owner : List Char
  repo : List Char
  branch : Option (List Char)
deriving DecidableEq, Repr

/-- Lines 35-51 of `parseRepoSpec`: split `repoPath` at the first `/` and
validate the components (shared by the branch and no-branch paths). -/
def parseRepoSpecRest (repoPath : List Char) (branch : Option (List Char)) :
    Except String RepoSpec :=
  match strIndexOf repoPath '/' with
  | none => .error "Invalid repo spec: must be in format \"owner/repo\" or \"owner/repo@branch\""
  | some slashIndex =>
    let owner := repoPath.take slashIndex
    let repo := repoPath.drop (slashIndex + 1)
    if owner.isEmpty || repo.isEmpty then
      .error "Invalid repo spec: owner and repo cannot be empty"
    else if repo.contains '/' then
      .error "Invalid repo spec: repo name cannot contain \"/\""
    else
      .ok { owner := owner, repo := repo, branch := branch }

/-- `parseRepoSpec` from src/git.ts: split at the first `@` (if any) into
repo path and branch, reject an empty branch, then split the repo path. -/
def parseRepoSpec (spec : List Char) : Except String RepoSpec :=
  match strIndexOf spec '@' with
  | some atIndex =>
    let repoPath := spec.take atIndex
    let branch := spec.drop (atIndex + 1)
    if branch.isEmpty then
      .error "Invalid repo spec: branch cannot be empty after @"
    else
      parseRepoSpecRest repoPath (some branch)
  | none => parseRepoSpecRest spec none

lemma strIndexOf_eq_none_iff (s : List Char) (c : Char) :
    strIndexOf s c = none ↔ c ∉ s := by
  induction s with
  | nil => simp [strIndexOf]
  | cons h rest ih =>
    by_cases hc : h = c
    · subst hc
      simp [strIndexOf]
    · rw [strIndexOf, if_neg hc]
      simp only [Option.map_eq_none', ih, List.mem_cons, not_or]
      constructor
      · intro h'
        exact ⟨fun he => hc he.symm, h'⟩
      · intro h'
        exact h'.2

lemma strIndexOf_append_of_not_mem (a b : List Char) (c : Char) (h : c ∉ a) :
    strIndexOf (a ++ b) c = (strIndexOf b c).map (· + a.length) := by
  induction a with
  | nil => simp
  | cons x rest ih =>
    simp only [List.mem_cons, not_or] at h
    have hx : ¬(x = c) := fun he => h.1 he.symm
    rw [List.cons_append, strIndexOf, if_neg hx, ih h.2]
    cases strIndexOf b c with
    | none => rfl
    | some k =>
      simp only [Option.map_some', Option.some.injEq, List.length_cons]
      omega

lemma strIndexOf_append_cons_self (a b : List Char) (c : Char) (h : c ∉ a) :
    strIndexOf (a ++ c :: b) c = some a.length := by
  rw [strIndexOf_append_of_not_mem a _ c h]
  simp [strIndexOf]

lemma strIndexOf_split : ∀ (s : List Char) (c : Char) (i : Nat),
    strIndexOf s c = some i →
    s = s.take i ++ c :: s.drop (i + 1) ∧ c ∉ s.take i := by
  intro s
  induction s with
  | nil =>
    intro c i h
    exact absurd h (by simp [strIndexOf])
  | cons x rest ih =>
    intro c i h
    by_cases hc : x = c
    · subst hc
      rw [strIndexOf, if_pos rfl] at h
      have hi : i = 0 := by
        injection h with h'
        exact h'.symm
      subst hi
      simp
    · rw [strIndexOf, if_neg hc] at h
      cases hj : strIndexOf rest c with
      | none =>
        rw [hj] at h
        simp at h
      | some j =>
        rw [hj] at h
        simp only [Option.map_some'] at h
        injection h with h'
        subst h'
        obtain ⟨h1, h2⟩ := ih c j hj
        constructor
        · conv_lhs => rw [h1]
          simp [List.take_succ_cons, List.drop_succ_cons]
        · rw [List.take_succ_cons]
          simp only [List.mem_cons, not_or]
          exact ⟨fun he => hc he.symm, h2⟩

lemma take_append_cons (a b : List Char) (c : Char) :
    (a ++ c :: b).take a.length = a :=
  List.take_left a (c :: b)

lemma drop_append_cons (a b : List Char) (c : Char) :
    (a ++ c :: b).drop (a.length + 1) = b := by
  have h1 : (a ++ c :: b).drop a.length = c :: b := List.drop_left a (c :: b)
  have h2 : (a ++ c :: b).drop (a.length + 1) =
      ((a ++ c :: b).drop a.length).drop 1 := by
    rw [List.drop_drop, Nat.add_comm]
  rw [h2, h1]
  simp

lemma parseRepoSpec_at_none (spec : List Char)
    (h : strIndexOf spec '@' = none) :
    parseRepoSpec spec = parseRepoSpecRest spec none := by
  unfold parseRepoSpec
  rw [h]

lemma parseRepoSpec_at_some (spec : List Char) (i : Nat)
    (h : strIndexOf spec '@' = some i) :
    parseRepoSpec spec =
      if (spec.drop (i + 1)).isEmpty then
        .error "Invalid repo spec: branch cannot be empty after @"
      else
        parseRepoSpecRest (spec.take i) (some (spec.drop (i + 1))) := by
  unfold parseRepoSpec
  rw [h]

lemma parseRepoSpecRest_slash_none (rp : List Char) (b : Option (List Char))
    (h : strIndexOf rp '/' = none) :
    parseRepoSpecRest rp b =
      .error "Invalid repo spec: must be in format \"owner/repo\" or \"owner/repo@branch\"" := by
  unfold parseRepoSpecRest
  rw [h]

lemma parseRepoSpecRest_slash_some (rp : List Char) (b : Option (List Char)) (i : Nat)
    (h : strIndexOf rp '/' = some i) :
    parseRepoSpecRest rp b =
      if ((rp.take i).isEmpty || (rp.drop (i + 1)).isEmpty) then
        .error "Invalid repo spec: owner and repo cannot be empty"
      else if (rp.drop (i + 1)).contains '/' then
        .error "Invalid repo spec: repo name cannot contain \"/\""
      else
        .ok { owner := rp.take i, repo := rp.drop (i + 1), branch := b } := by
  unfold parseRepoSpecRest
  rw [h]

/-- C5: `parseRepoSpec` succeeds exactly on the well-formed specs.  It
returns `⟨owner, repo, branch⟩` iff the spec is `owner/repo` (branch
`none`) or `owner/repo@branch` with a non-empty branch after the first
`@`, where owner and repo are non-empty and contain no further `/` (nor an
`@`, which would make the `@` in question not the branch separator);
branch values may themselves contain `/`.  Consequently it raises exactly
when owner or repo is empty, the repo part contains an extra `/`, there is
no `/` before the branch separator, or the branch after `@` is empty. -/
theorem c5_parseRepoSpec_characterization (spec owner repo : List Char)
    (branch : Option (List Char)) :
    parseRepoSpec spec = .ok ⟨owner, repo, branch⟩ ↔
      (owner ≠ [] ∧ repo ≠ [] ∧
       '/' ∉ owner ∧ '@' ∉ owner ∧ '/' ∉ repo ∧ '@' ∉ repo ∧
       ((branch = none ∧ spec = owner ++ '/' :: repo) ∨
        (∃ br, branch = some br ∧ br ≠ [] ∧
          spec = owner ++ '/' :: repo ++ '@' :: br))) := by
  constructor
  · intro h
    cases hat : strIndexOf spec '@' with
    | some atIndex =>
      rw [parseRepoSpec_at_some spec atIndex hat] at h
      by_cases hb : (spec.drop (atIndex + 1)).isEmpty = true
      · rw [if_pos hb] at h
        exact absurd h (by simp)
      · rw [if_neg hb] at h
        cases hsl : strIndexOf (spec.take atIndex) '/' with
        | none =>
          rw [parseRepoSpecRest_slash_none _ _ hsl] at h
          exact absurd h (by simp)
        | some slashIndex =>
          rw [parseRepoSpecRest_slash_some _ _ slashIndex hsl] at h
          by_cases he : (((spec.take atIndex).take slashIndex).isEmpty ||
              ((spec.take atIndex).drop (slashIndex + 1)).isEmpty) = true
          · rw [if_pos he] at h
            exact absurd h (by simp)
          · rw [if_neg he] at h
            by_cases hc : ((spec.take atIndex).drop (slashIndex + 1)).contains '/' = true
            · rw [if_pos hc] at h
              exact absurd h (by simp)
            · rw [if_neg hc] at h
              simp only [Except.ok.injEq, RepoSpec.mk.injEq] at h
              obtain ⟨ho, hr, hbr⟩ := h
              obtain ⟨hsplit_at, hnot_at⟩ := strIndexOf_split spec '@' atIndex hat
              obtain ⟨hsplit_sl, hnot_sl⟩ :=
                strIndexOf_split (spec.take atIndex) '/' slashIndex hsl
              simp only [Bool.or_eq_true, List.isEmpty_iff] at he
              push_neg at he
              subst ho hr
              refine ⟨he.1, he.2, hnot_sl, ?_, ?_, ?_, ?_⟩
              · intro hmem
                exact hnot_at (List.mem_of_mem_take hmem)
              · intro hmem
                exact hc (by simpa using hmem)
              · intro hmem
                exact hnot_at (List.mem_of_mem_drop hmem)
              · right
                refine ⟨spec.drop (atIndex + 1), hbr.symm,
                  by simpa [List.isEmpty_iff] using hb, ?_⟩
                have hs2 : spec = ((spec.take atIndex).take slashIndex ++
                    '/' :: (spec.take atIndex).drop (slashIndex + 1)) ++
                    '@' :: spec.drop (atIndex + 1) := by
                  conv_lhs => rw [hsplit_at, hsplit_sl]
                exact hs2.trans (by simp)
    | none =>
      rw [parseRepoSpec_at_none spec hat] at h
      cases hsl : strIndexOf spec '/' with
      | none =>
        rw [parseRepoSpecRest_slash_none _ _ hsl] at h
        exact absurd h (by simp)
      | some slashIndex =>
        rw [parseRepoSpecRest_slash_some _ _ slashIndex hsl] at h
        by_cases he : ((spec.take slashIndex).isEmpty ||
            (spec.drop (slashIndex + 1)).isEmpty) = true
        · rw [if_pos he] at h
          exact absurd h (by simp)
        · rw [if_neg he] at h
          by_cases hc : (spec.drop (slashIndex + 1)).contains '/' = true
          · rw [if_pos hc] at h
            exact absurd h (by simp)
          · rw [if_neg hc] at h
            simp only [Except.ok.injEq, RepoSpec.mk.injEq] at h
            obtain ⟨ho, hr, hbr⟩ := h
            obtain ⟨hsplit_sl, hnot_sl⟩ := strIndexOf_split spec '/' slashIndex hsl
            have hnot_at : '@' ∉ spec := (strIndexOf_eq_none_iff spec '@').mp hat
            simp only [Bool.or_eq_true, List.isEmpty_iff] at he
            push_neg at he
            subst ho hr
            refine ⟨he.1, he.2, hnot_sl, ?_, ?_, ?_, ?_⟩
            · intro hmem
              exact hnot_at (List.mem_of_mem_take hmem)
            · intro hmem
              exact hc (by simpa using hmem)
            · intro hmem
              exact hnot_at (List.mem_of_mem_drop hmem)
            · left
              exact ⟨hbr.symm, hsplit_sl⟩
  · rintro ⟨ho, hr, hso, hao, hsr, har, hform⟩
    rcases hform with ⟨hbn, hspec⟩ | ⟨br, hbs, hbne, hspec⟩
    · subst hbn
      subst hspec
      have hat : strIndexOf (owner ++ '/' :: repo) '@' = none := by
        rw [strIndexOf_eq_none_iff]
        intro hmem
        rcases List.mem_append.mp hmem with h | h
        · exact hao h
        · rcases List.mem_cons.mp h with h | h
          · exact absurd h (by decide)
          · exact har h
      rw [parseRepoSpec_at_none _ hat,
        parseRepoSpecRest_slash_some _ _ owner.length
          (strIndexOf_append_cons_self owner repo '/' hso),
        take_append_cons, drop_append_cons,
        if_neg (by simp [List.isEmpty_iff, ho, hr]),
        if_neg (by simp [hsr])]
    · subst hbs
      subst hspec
      have hnotat : '@' ∉ owner ++ '/' :: repo := by
        intro hmem
        rcases List.mem_append.mp hmem with h | h
        · exact hao h
        · rcases List.mem_cons.mp h with h | h
          · exact absurd h (by decide)
          · exact har h
      have hre : owner ++ '/' :: repo ++ '@' :: br =
          (owner ++ '/' :: repo) ++ '@' :: br := by simp
      have hat : strIndexOf (owner ++ '/' :: repo ++ '@' :: br) '@' =
          some (owner ++ '/' :: repo).length := by
        rw [hre]
        exact strIndexOf_append_cons_self _ br '@' hnotat
      rw [parseRepoSpec_at_some _ _ hat, hre, take_append_cons, drop_append_cons,
        if_neg (by simp [List.isEmpty_iff, hbne]),
        parseRepoSpecRest_slash_some _ _ owner.length
          (strIndexOf_append_cons_self owner repo '/' hso),
        take_append_cons, drop_append_cons,
        if_neg (by simp [List.isEmpty_iff, ho, hr]),
        if_neg (by simp [hsr])]

/-- Witness for C5: `octo-org/hello.repo@feat/x` parses into its
components (branch containing `/`), and the characterization also refutes
success on `octo-org` (no slash). -/
theorem c5_parseRepoSpec_witness :
    parseRepoSpec ("octo-org/hello.repo@feat/x".toList) =
      .ok ⟨"octo-org".toList, "hello.repo".toList, some "feat/x".toList⟩ ∧
    ∀ owner repo branch, parseRepoSpec ("octo-org".toList) ≠ .ok ⟨owner, repo, branch⟩ := by
  constructor
  · exact (c5_parseRepoSpec_characterization _ _ _ _).mpr
      (by refine ⟨by decide, by decide, by decide, by decide, by decide, by decide, ?_⟩
          right
          exact ⟨"feat/x".toList, rfl, by decide, by decide⟩)
  · intro owner repo branch h
    have := (c5_parseRepoSpec_characterization _ _ _ _).mp h
    obtain ⟨ho, hr, hso, hao, hsr, har, hform⟩ := this
    rcases hform with ⟨_, hspec⟩ | ⟨br, _, hbne, hspec⟩
    · have : '/' ∈ "octo-org".toList := by rw [hspec]; simp
      revert this
      decide
    · have : '@' ∈ "octo-org".toList := by rw [hspec]; simp
      revert this
      decide

/-! ## Manifest lock (src/manifest.ts)

The lock subsystem runs in a sequential single-actor environment: a
competing holder is modelled by the initial state (a marker with some
mtime that is never released), time advances only by the acquirer's own
backoff sleeps, and filesystem operations are the acquirer's. -/

def LOCK_STALE_MS : Nat := 30000
def LOCK_RETRY_DELAY_MS : Nat := 100
def LOCK_MAX_ATTEMPTS : Nat := 300

/-- Lock-relevant state: the marker file (`some mtime` when present) and
the current clock in milliseconds. -/
structure LockSt where
  lock : Option Nat
  now : Nat
deriving DecidableEq, Repr

/-- `isLockStale`: `stat` failure (no marker) is caught and reported as
stale; otherwise the marker's age is compared with the threshold.  JS
computes `Date.now() - mtimeMs > 30000` over reals; a future-dated marker
gives a negative age, never stale, which truncated `Nat` subtraction
reproduces. -/
def isLockStale (st : LockSt) : Bool :=
  match st.lock with
  | none => true
  | some m => decide (LOCK_STALE_MS < st.now - m)

inductive AcqLoopRes where
  | acquired (st : LockSt) (attemptsUsed : Nat)
  | exhausted (st : LockSt)
deriving DecidableEq, Repr

/-- The retry loop of `acquireLock`: each attempt tries exclusive creation
(`open "wx"`); on `EEXIST`, a stale marker is unlinked and the loop
continues immediately, otherwise the acquirer sleeps the fixed retry delay
before the next attempt. -/
def acquireLoop : Nat → Nat → LockSt → AcqLoopRes
  | 0, _, st => .exhausted st
  | fuel + 1, used, st =>
    match st.lock with
    | none => .acquired { st with lock := some st.now } (used + 1)
    | some _ =>
      if isLockStale st then
        acquireLoop fuel (used + 1) { st with lock := none }
      else
        acquireLoop fuel (used + 1) { st with now := st.now + LOCK_RETRY_DELAY_MS }

structure AcqResult where
  ok : Bool
  st : LockSt
  attempts : Nat
deriving DecidableEq, Repr

/-- `acquireLock`: run the bounded retry loop; on exhaustion forcibly
unlink the marker and fail with an error. -/
def acquireLock (st : LockSt) : AcqResult :=
  match acquireLoop LOCK_MAX_ATTEMPTS 0 st with
  | .acquired st' used => { ok := true, st := st', attempts := used }
  | .exhausted st' =>
    { ok := false, st := { st' with lock := none }, attempts := LOCK_MAX_ATTEMPTS }

/-- `withManifestLock(body)`: acquire, run the body, release in a
`finally`.  The body is the callback's outcome (normal return or raised
error); it does not touch the marker. -/
def withManifestLock {α : Type} (st : LockSt) (body : Except String α) :
    Except String α × LockSt :=
  let acq := acquireLock st
  if acq.ok then
    (body, { acq.st with lock := none })
  else
    (.error "Failed to acquire manifest lock", acq.st)

lemma acquireLoop_acquired_spec : ∀ (fuel used : Nat) (st st' : LockSt) (used' : Nat),
    acquireLoop fuel used st = .acquired st' used' →
    st'.lock = some st'.now ∧ used' ≤ used + fuel := by
  intro fuel
  induction fuel with
  | zero =>
    intro used st st' used' h
    exact absurd h (by simp [acquireLoop])
  | succ fuel ih =>
    intro used st st' used' h
    rw [acquireLoop] at h
    cases hl : st.lock with
    | none =>
      rw [hl] at h
      injection h with h1 h2
      subst h1
      subst h2
      exact ⟨rfl, by omega⟩
    | some m =>
      rw [hl] at h
      by_cases hs : isLockStale st = true
      · rw [if_pos hs] at h
        obtain ⟨h1, h2⟩ := ih (used + 1) _ st' used' h
        exact ⟨h1, by omega⟩
      · rw [if_neg hs] at h
        obtain ⟨h1, h2⟩ := ih (used + 1) _ st' used' h
        exact ⟨h1, by omega⟩

/-- C4: lock acquisition always terminates within the maximum attempt
count; it either succeeds having created the marker itself, or fails with
the marker forcibly removed (never an infinite wait).  The step equations
state the per-attempt behavior: no marker means exclusive creation
succeeds on that attempt; on conflict a stale marker is deleted and the
loop retries immediately (same clock, no backoff), while a fresh marker
causes a fixed backoff before the retry.  The final conjunct exhibits
exhaustion: a freshly created marker that is never released makes all 300
attempts fail, after which the marker is removed and the call errors. -/
theorem c4_acquireLock_bounded_and_terminal (st : LockSt) :
    ((acquireLock st).attempts ≤ LOCK_MAX_ATTEMPTS) ∧
    (((acquireLock st).ok = true ∧
        (acquireLock st).st.lock = some (acquireLock st).st.now) ∨
     ((acquireLock st).ok = false ∧ (acquireLock st).st.lock = none)) ∧
    (∀ (now fuel used : Nat),
      acquireLoop (fuel + 1) used { lock := none, now := now } =
        .acquired { lock := some now, now := now } (used + 1)) ∧
    (∀ (m now fuel used : Nat),
      acquireLoop (fuel + 1) used { lock := some m, now := now } =
        if isLockStale { lock := some m, now := now } then
          acquireLoop fuel (used + 1) { lock := none, now := now }
        else
          acquireLoop fuel (used + 1)
            { lock := some m, now := now + LOCK_RETRY_DELAY_MS }) ∧
    ((acquireLock { lock := some 1000, now := 1000 }).ok = false ∧
     (acquireLock { lock := some 1000, now := 1000 }).st.lock = none) := by
  refine ⟨?_, ?_, fun now fuel used => rfl, fun m now fuel used => rfl, by decide⟩
  · unfold acquireLock
    cases h : acquireLoop LOCK_MAX_ATTEMPTS 0 st with
    | acquired st' used =>
      simpa using (acquireLoop_acquired_spec _ _ _ _ _ h).2
    | exhausted st' => simp
  · unfold acquireLock
    cases h : acquireLoop LOCK_MAX_ATTEMPTS 0 st with
    | acquired st' used =>
      left
      exact ⟨rfl, (acquireLoop_acquired_spec _ _ _ _ _ h).1⟩
    | exhausted st' =>
      right
      exact ⟨rfl, rfl⟩

/-- C3: `withManifestLock` removes the lock marker on every exit path —
the final lock state is empty whether the body returned, the body threw,
or acquisition itself failed — and when the lock was acquired the body's
outcome is propagated unchanged (normal result returned, error
re-raised). -/
theorem c3_withManifestLock_releases {α : Type} (st : LockSt)
    (body : Except String α) :
    (withManifestLock st body).2.lock = none ∧
    ((acquireLock st).ok = true → (withManifestLock st body).1 = body) := by
  unfold withManifestLock
  constructor
  · by_cases h : (acquireLock st).ok = true
    · rw [if_pos h]
    · rw [if_neg h]
      rcases (c4_acquireLock_bounded_and_terminal st).2.1 with ⟨hok, _⟩ | ⟨_, hl⟩
      · exact absurd hok h
      · exact hl
  · intro h
    rw [if_pos h]

/-- Witness for C3: on an unlocked initial state, a normally returning
body has its result returned and the marker removed, and a throwing body
has its error re-raised and the marker removed. -/
theorem c3_withManifestLock_releases_witness :
    ((withManifestLock ⟨none, 0⟩ (.ok 7 : Except String Nat)).1 = .ok 7 ∧
     (withManifestLock ⟨none, 0⟩ (.ok 7 : Except String Nat)).2.lock = none) ∧
    ((withManifestLock ⟨none, 0⟩ (.error "boom" : Except String Nat)).1 = .error "boom" ∧
     (withManifestLock ⟨none, 0⟩ (.error "boom" : Except String Nat)).2.lock = none) :=
  ⟨⟨(c3_withManifestLock_releases ⟨none, 0⟩ (.ok 7)).2 (by decide),
    (c3_withManifestLock_releases ⟨none, 0⟩ (.ok 7)).1⟩,
   ⟨(c3_withManifestLock_releases ⟨none, 0⟩ (.error "boom")).2 (by decide),
    (c3_withManifestLock_releases ⟨none, 0⟩ (.error "boom")).1⟩⟩

/-! ## Git acquisition engine: cloneRepo with branch fallback

Embeds the branch-fallback `cloneRepo` (the rewrite's git module, also
cited by the claims): requested branch → single attempt; otherwise the
remote's symbolic default followed by the conventional `main`/`master`
fallbacks, then a plain default clone, with per-attempt cleanup and
aggregated errors.  The external git tool is an oracle `GitEnv`; the
destination directory's existence is a tracked `Bool`. -/

structure GitEnv where
  branchCloneOk : String → Bool
  branchCloneErr : String → String
  remoteDefault : Option String
  defaultCloneOk : Bool
  defaultCloneBranch : String
  defaultCloneErr : String
  failResidue : Bool

/-- `uniqueValues` from the git module: drop null/empty values and
duplicates, preserving first-occurrence order. -/
def uniqueValuesAux : List String → List (Option String) → List String
  | acc, [] => acc
  | acc, none :: rest => uniqueValuesAux acc rest
  | acc, some v :: rest =>
    if v = "" then uniqueValuesAux acc rest
    else if acc.contains v then uniqueValuesAux acc rest
    else uniqueValuesAux (acc ++ [v]) rest

def uniqueValues (values : List (Option String)) : List String :=
  uniqueValuesAux [] values

deriving instance DecidableEq for Except

/-- Outcome of `cloneRepo`: the returned branch or raised error, and
whether anything exists at the destination path afterwards. -/
structure CloneOutcome where
  result : Except String String
  dest : Bool
deriving DecidableEq, Repr

/-- The `branchCandidates` list of the fallback path: remote default
first, then the conventional fallbacks, deduplicated. -/
def branchCandidatesOf (env : GitEnv) : List String :=
  uniqueValues [env.remoteDefault, some "main", some "master"]

/-- The `for (const branchCandidate of branchCandidates)` loop: cleanup,
attempt the branch, return on success, record the failure otherwise.  A
failed attempt leaves `env.failResidue` at the destination until the next
cleanup. -/
def cloneFallbackLoop (env : GitEnv) :
    List String → List String → Bool → Option String × List String × Bool
  | [], errs, dest => (none, errs, dest)
  | c :: rest, errs, _ =>
    if env.branchCloneOk c then (some c, errs, true)
    else cloneFallbackLoop env rest
      (errs ++ [c ++ ": " ++ env.branchCloneErr c]) env.failResidue

/-- The no-requested-branch path of `cloneRepo`: candidate branches, then
the plain default clone, with cleanup before every attempt and after every
failure. -/
def cloneRepoFallback (env : GitEnv) (dest0 : Bool) : CloneOutcome :=
  match cloneFallbackLoop env (branchCandidatesOf env) [] dest0 with
  | (some branch, _, _) => { result := .ok branch, dest := true }
  | (none, attemptErrors, _) =>
    if env.defaultCloneOk then
      { result := .ok (if env.defaultCloneBranch = "" then "main"
                       else env.defaultCloneBranch),
        dest := true }
    else
      if String.intercalate " | " attemptErrors = "" then
        { result := .error ("Clone failed: " ++ env.defaultCloneErr), dest := false }
      else
        { result := .error ("Clone failed after branch fallbacks (" ++
            String.intercalate " | " attemptErrors ++
            "). Final error: " ++ env.defaultCloneErr),
          dest := false }

/-- `cloneRepo` from the git module.  A requested branch (JS-truthy, so a
non-empty string) is attempted once after a cleanup, with cleanup before
the raise on failure; otherwise the fallback chain runs. -/
def cloneRepo (env : GitEnv) (dest0 : Bool) (options : Option String) : CloneOutcome :=
  match options with
  | some requestedBranch =>
    if requestedBranch = "" then cloneRepoFallback env dest0
    else if env.branchCloneOk requestedBranch then
      { result := .ok requestedBranch, dest := true }
    else
      { result := .error ("Clone failed for branch \"" ++ requestedBranch ++
          "\": " ++ env.branchCloneErr requestedBranch),
        dest := false }
  | none => cloneRepoFallback env dest0

lemma intercalateGo_length (s : String) : ∀ (xs : List String) (a : String),
    a.length ≤ (String.intercalate.go a s xs).length := by
  intro xs
  induction xs with
  | nil =>
    intro a
    simp [String.intercalate.go]
  | cons x rest ih =>
    intro a
    rw [String.intercalate.go]
    calc a.length ≤ (a ++ s ++ x).length := by
          simp [String.length_append]
          omega
      _ ≤ _ := ih (a ++ s ++ x)

lemma intercalate_cons_ne_empty (x : String) (xs : List String) (h : x ≠ "") :
    String.intercalate " | " (x :: xs) ≠ "" := by
  have h2 := intercalateGo_length " | " xs x
  rw [String.intercalate]
  intro he
  rw [he] at h2
  simp at h2
  apply h
  cases x with
  | mk data =>
    cases data with
    | nil => rfl
    | cons c cs => simp [String.length] at h2

lemma cloneFallbackLoop_success (env : GitEnv) :
    ∀ (cands : List String) (errs : List String) (dest : Bool) (c : String),
    cands.find? env.branchCloneOk = some c →
    ∃ errs', cloneFallbackLoop env cands errs dest = (some c, errs', true) := by
  intro cands
  induction cands with
  | nil =>
    intro errs dest c h
    simp at h
  | cons c0 rest ih =>
    intro errs dest c h
    rw [List.find?_cons] at h
    cases hok : env.branchCloneOk c0 with
    | true =>
      rw [hok] at h
      injection h with h'
      subst h'
      exact ⟨errs, by rw [cloneFallbackLoop, if_pos hok]⟩
    | false =>
      rw [hok] at h
      obtain ⟨errs', he⟩ := ih _ env.failResidue c h
      exact ⟨errs', by rw [cloneFallbackLoop, if_neg (by simp [hok]), he]⟩

lemma cloneFallbackLoop_failure (env : GitEnv) :
    ∀ (cands : List String) (errs : List String) (dest : Bool),
    cands.find? env.branchCloneOk = none →
    ∃ d, cloneFallbackLoop env cands errs dest =
      (none, errs ++ cands.map (fun c => c ++ ": " ++ env.branchCloneErr c), d) := by
  intro cands
  induction cands with
  | nil =>
    intro errs dest _
    exact ⟨dest, by simp [cloneFallbackLoop]⟩
  | cons c0 rest ih =>
    intro errs dest h
    rw [List.find?_cons] at h
    cases hok : env.branchCloneOk c0 with
    | true => rw [hok] at h; exact absurd h (by simp)
    | false =>
      rw [hok] at h
      obtain ⟨d, hd⟩ := ih (errs ++ [c0 ++ ": " ++ env.branchCloneErr c0])
        env.failResidue h
      refine ⟨d, ?_⟩
      rw [cloneFallbackLoop, if_neg (by simp [hok]), hd]
      simp

lemma uniqueValues_candidates_shape (rd : Option String) :
    uniqueValues [rd, some "main", some "master"] =
      match rd with
      | none => ["main", "master"]
      | some d =>
        if d = "" then ["main", "master"]
        else if d = "main" then ["main", "master"]
        else if d = "master" then ["master", "main"]
        else [d, "main", "master"] := by
  cases rd with
  | none => rfl
  | some d =>
    by_cases h0 : d = ""
    · subst h0; rfl
    · by_cases h1 : d = "main"
      · subst h1; rfl
      · by_cases h2 : d = "master"
        · subst h2; rfl
        · simp only [h0, h1, h2, if_false]
          show uniqueValuesAux [] [some d, some "main", some "master"] = _
          rw [uniqueValuesAux, if_neg h0, if_neg (by simp)]
          rw [uniqueValuesAux, if_neg (by decide),
            if_neg (by simp; exact fun he => h1 he.symm)]
          rw [uniqueValuesAux, if_neg (by decide),
            if_neg (by simp; exact fun he => h2 he.symm)]
          rw [uniqueValuesAux]
          simp

lemma uniqueValues_candidates_ne_nil (rd : Option String) :
    uniqueValues [rd, some "main", some "master"] ≠ [] := by
  rw [uniqueValues_candidates_shape]
  cases rd with
  | none => simp
  | some d =>
    by_cases h0 : d = "" <;> by_cases h1 : d = "main" <;> by_cases h2 : d = "master" <;>
      simp [h0, h1, h2]

/-- C6: with no branch option, `cloneRepo` attempts the deduplicated
candidate list — the remote's symbolic default first, then the
conventional `main` and `master` fallbacks in order — stopping at the
first success; if every named attempt fails it falls back to a plain
default clone, reporting the branch that clone actually checked out
(`main` when unreadable); and when that too fails, the raised error
aggregates the per-attempt failure reason of every branch attempted. -/
theorem c6_cloneRepo_default_branch_fallback (env : GitEnv) (dest0 : Bool) :
    (branchCandidatesOf env =
      uniqueValues [env.remoteDefault, some "main", some "master"]) ∧
    (∀ c, (branchCandidatesOf env).find? env.branchCloneOk = some c →
      cloneRepo env dest0 none = { result := .ok c, dest := true }) ∧
    ((branchCandidatesOf env).find? env.branchCloneOk = none →
      (env.defaultCloneOk = true →
        cloneRepo env dest0 none =
          { result := .ok (if env.defaultCloneBranch = "" then "main"
                           else env.defaultCloneBranch),
            dest := true }) ∧
      (env.defaultCloneOk = false →
        cloneRepo env dest0 none =
          { result := .error ("Clone failed after branch fallbacks (" ++
              String.intercalate " | "
                ((branchCandidatesOf env).map
                  (fun c => c ++ ": " ++ env.branchCloneErr c)) ++
              "). Final error: " ++ env.defaultCloneErr),
            dest := false })) ∧
    (uniqueValues [none, some "main", some "master"] = ["main", "master"] ∧
     ∀ d, uniqueValues [some d, some "main", some "master"] =
       if d = "" then ["main", "master"]
       else if d = "main" then ["main", "master"]
       else if d = "master" then ["master", "main"]
       else [d, "main", "master"]) := by
  refine ⟨rfl, ?_, ?_, by rfl, fun d => uniqueValues_candidates_shape (some d)⟩
  · intro c h
    obtain ⟨errs', he⟩ := cloneFallbackLoop_success env _ [] dest0 c h
    show cloneRepoFallback env dest0 = _
    unfold cloneRepoFallback
    rw [he]
  · intro h
    obtain ⟨d, hd⟩ := cloneFallbackLoop_failure env _ [] dest0 h
    constructor
    · intro hok
      show cloneRepoFallback env dest0 = _
      unfold cloneRepoFallback
      rw [hd]
      simp only [hok, if_true]
    · intro hok
      show cloneRepoFallback env dest0 = _
      unfold cloneRepoFallback
      rw [hd, List.nil_append]
      simp only [hok, Bool.false_eq_true, if_false]
      have hne : String.intercalate " | "
          ((branchCandidatesOf env).map
            (fun c => c ++ ": " ++ env.branchCloneErr c)) ≠ "" := by
        cases hc : branchCandidatesOf env with
        | nil => exact absurd hc (uniqueValues_candidates_ne_nil env.remoteDefault)
        | cons c0 rest =>
          rw [List.map_cons]
          apply intercalate_cons_ne_empty
          intro he
          have hlen := congrArg String.length he
          rw [String.length_append, String.length_append] at hlen
          have e1 : (": ").length = 2 := rfl
          have e2 : ("").length = 0 := rfl
          rw [e1, e2] at hlen
          omega
      rw [if_neg hne]

/-- Witness for C6: with remote default `trunk` where only `master`
clones, the fallback stops at `master`; with every attempt failing and the
plain clone failing too, the error aggregates all three attempts. -/
theorem c6_cloneRepo_default_branch_fallback_witness :
    (cloneRepo
      { branchCloneOk := fun c => c = "master", branchCloneErr := fun _ => "no ref",
        remoteDefault := some "trunk", defaultCloneOk := false,
        defaultCloneBranch := "", defaultCloneErr := "fatal",
        failResidue := true } false none =
      { result := .ok "master", dest := true }) ∧
    (cloneRepo
      { branchCloneOk := fun _ => false, branchCloneErr := fun _ => "no ref",
        remoteDefault := some "trunk", defaultCloneOk := false,
        defaultCloneBranch := "", defaultCloneErr := "fatal",
        failResidue := true } false none =
      { result := .error ("Clone failed after branch fallbacks (trunk: no ref | main: no ref | master: no ref). Final error: fatal"),
        dest := false }) := by
  constructor
  · exact (c6_cloneRepo_default_branch_fallback _ false).2.1 "master" (by decide)
  · have h := (((c6_cloneRepo_default_branch_fallback
      { branchCloneOk := fun _ => false, branchCloneErr := fun _ => "no ref",
        remoteDefault := some "trunk", defaultCloneOk := false,
        defaultCloneBranch := "", defaultCloneErr := "fatal",
        failResidue := true } false).2.2.1 (by decide)).2) rfl
    rw [h]
    decide

lemma cloneRepoFallback_dest_eq (env : GitEnv) (dest0 : Bool) :
    (cloneRepoFallback env dest0).dest = (cloneRepoFallback env dest0).result.isOk := by
  unfold cloneRepoFallback
  cases hl : cloneFallbackLoop env (branchCandidatesOf env) [] dest0 with
  | mk fst rest =>
    obtain ⟨snd, d⟩ := rest
    cases fst with
    | some br => rfl
    | none =>
      by_cases hok : env.defaultCloneOk = true
      · simp [hok, Except.isOk, Except.toBool]
      · by_cases hdet : String.intercalate " | " snd = "" <;>
          simp [hok, hdet, Except.isOk, Except.toBool]

lemma cloneRepo_dest_eq (env : GitEnv) (dest0 : Bool) (options : Option String) :
    (cloneRepo env dest0 options).dest = (cloneRepo env dest0 options).result.isOk := by
  cases options with
  | none => exact cloneRepoFallback_dest_eq env dest0
  | some b =>
    by_cases hb : b = ""
    · simp only [cloneRepo, if_pos hb]
      exact cloneRepoFallback_dest_eq env dest0
    · by_cases hok : env.branchCloneOk b = true <;>
        simp [cloneRepo, hb, hok, Except.isOk, Except.toBool]

/-- C7: every failing `cloneRepo` call removes any partial state at the
destination before raising: whenever the result is an error, nothing
exists at the destination path afterwards, whatever was there initially
and whatever residue failed attempts left in between. -/
theorem c7_cloneRepo_failure_leaves_no_residue (env : GitEnv) (dest0 : Bool)
    (options : Option String) (e : String)
    (h : (cloneRepo env dest0 options).result = .error e) :
    (cloneRepo env dest0 options).dest = false := by
  have hd := cloneRepo_dest_eq env dest0 options
  rw [h] at hd
  simpa [Except.isOk, Except.toBool] using hd

/-- Witness for C7: cloning a nonexistent remote (every attempt fails)
leaves the destination absent even though failed attempts deposit residue
and the destination was initially occupied. -/
theorem c7_cloneRepo_failure_leaves_no_residue_witness :
    (cloneRepo
      { branchCloneOk := fun _ => false, branchCloneErr := fun _ => "not found",
        remoteDefault := none, defaultCloneOk := false,
        defaultCloneBranch := "", defaultCloneErr := "repository not found",
        failResidue := true } true none).dest = false :=
  c7_cloneRepo_failure_leaves_no_residue _ true none
    "Clone failed after branch fallbacks (main: not found | master: not found). Final error: repository not found"
    (by decide)

/-! ## Orchestration layer (index.ts)

`ensureRepoAvailable`, the `repo_clone` tool, `repo_remove`, and the
startup cleanup are embedded as sequential state transformers over the
typed manifest (association list with JS-object key semantics), a list of
existing working-tree directories for the filesystem, and an oracle for
the external git tool.  Git mutations of working trees are recorded as an
effect trace. -/

/-- Working-tree mutations performed through the git module. -/
inductive GitEffect where
  | gitClone (branch : String)
  | gitSwitchBranch (branch : String)
  | gitUpdate
deriving DecidableEq, Repr

/-- JS object property read `record[key]`. -/
def recordGet (l : List (String × α)) (key : String) : Option α :=
  l.lookup key

/-- JS `delete record[key]`: a JS object holds each key at most once, so
deleting the key removes every pair carrying it. -/
def recordDelete (l : List (String × α)) (key : String) : List (String × α) :=
  l.filter (fun p => p.1 ≠ key)

/-- Environment of an orchestration call: the clock, `Date` parsing, and
the outcomes the external git tool would produce. -/
structure EnsureEnv where
  now : String
  nowMs : Int
  dateMs : String → Option Int
  cloneRes : Except String Unit
  switchRes : Except String Unit
  updateRes : Except String Unit

/-- `shouldSyncRepo` from index.ts: missing, empty or unparseable
`lastUpdated` forces a sync; otherwise sync when the interval has
elapsed. -/
def shouldSyncRepo (env : EnsureEnv) (lastUpdated : Option String)
    (intervalHours : Int) : Bool :=
  match lastUpdated with
  | none => true
  | some s =>
    if s = "" then true
    else
      match env.dateMs s with
      | none => true
      | some t => decide (env.nowMs - t ≥ intervalHours * 60 * 60 * 1000)

structure EnsureResult where
  repoPath : String
  branch : String
  type : EntryType
deriving DecidableEq, Repr

/-- `ensureRepoAvailable` from index.ts: no entry → clone under the lock
and create a cached entry; cached entry on another branch → switch and
record it; cached entry on the requested branch → auto-sync (fetch+reset)
when the policy says so, else leave everything untouched; local entry →
return its path unchanged.  (The destination directory's contents are not
tracked here; git mutations appear in the effect trace.) -/
def ensureRepoAvailable (env : EnsureEnv) (m : Manifest)
    (repoKey branch cacheDir : String) (useHttps autoSyncOnExplore : Bool)
    (autoSyncIntervalHours : Int) :
    Except String EnsureResult × Manifest × List GitEffect :=
  match recordGet m.repos repoKey with
  | none =>
    match env.cloneRes with
    | .error e => (.error e, m, [.gitClone branch])
    | .ok _ =>
      (.ok { repoPath := cacheDir ++ "/" ++ (repoKey.splitOn "/").getD 0 "" ++ "/" ++
               (repoKey.splitOn "/").getD 1 "",
             branch := branch, type := .cached },
       { m with repos := (recordSet m.repos repoKey
           { type := .cached
             path := cacheDir ++ "/" ++ (repoKey.splitOn "/").getD 0 "" ++ "/" ++
               (repoKey.splitOn "/").getD 1 ""
             clonedAt := some env.now
             lastAccessed := env.now
             lastUpdated := some env.now
             currentBranch := branch
             shallow := some true }) },
       [.gitClone branch])
  | some entry =>
    if entry.type = .cached then
      if entry.currentBranch ≠ branch then
        match env.switchRes with
        | .error e => (.error e, m, [.gitSwitchBranch branch])
        | .ok _ =>
          (.ok { repoPath := entry.path, branch := branch, type := entry.type },
           { m with repos := (recordSet m.repos repoKey
               { entry with currentBranch := branch, lastUpdated := some env.now }) },
           [.gitSwitchBranch branch])
      else if autoSyncOnExplore &&
          shouldSyncRepo env entry.lastUpdated autoSyncIntervalHours then
        match env.updateRes with
        | .error e => (.error e, m, [.gitUpdate])
        | .ok _ =>
          (.ok { repoPath := entry.path, branch := branch, type := entry.type },
           { m with repos := (recordSet m.repos repoKey
               { entry with lastUpdated := some env.now }) },
           [.gitUpdate])
      else
        (.ok { repoPath := entry.path, branch := branch, type := entry.type }, m, [])
    else
      (.ok { repoPath := entry.path, branch := branch, type := entry.type }, m, [])

structure RepoCloneResult where
  path : String
  branch : String
  alreadyExists : Bool
deriving DecidableEq, Repr

/-- The `repo_clone` tool body (after spec parsing) from index.ts: an
existing entry without `force` reuses the cache — switching branches only
when the recorded branch differs — and otherwise the repository is cloned
and a fresh cached entry written. -/
def repoCloneExecute (env : EnsureEnv) (m : Manifest)
    (owner repo branch cacheDir : String) (force : Bool) :
    Except String RepoCloneResult × Manifest × List GitEffect :=
  match recordGet m.repos (owner ++ "/" ++ repo), force with
  | some entry, false =>
    if entry.currentBranch ≠ branch then
      match env.switchRes with
      | .error e => (.error e, m, [.gitSwitchBranch branch])
      | .ok _ =>
        (.ok { path := entry.path, branch := branch, alreadyExists := true },
         { m with repos := (recordSet m.repos (owner ++ "/" ++ repo)
             { entry with
                 currentBranch := branch
                 lastUpdated := some env.now
                 lastAccessed := env.now }) },
         [.gitSwitchBranch branch])
    else
      (.ok { path := entry.path, branch := branch, alreadyExists := true },
       { m with repos := (recordSet m.repos (owner ++ "/" ++ repo)
           { entry with lastAccessed := env.now }) },
       [])
  | _, _ =>
    match env.cloneRes with
    | .error e => (.error ("Failed to clone " ++ (owner ++ "/" ++ repo) ++ ": " ++ e), m,
        [.gitClone branch])
    | .ok _ =>
      (.ok { path := cacheDir ++ "/" ++ owner ++ "/" ++ repo, branch := branch,
             alreadyExists := false },
       { m with repos := (recordSet m.repos (owner ++ "/" ++ repo)
           { type := .cached
             path := cacheDir ++ "/" ++ owner ++ "/" ++ repo
             clonedAt := some env.now
             lastAccessed := env.now
             lastUpdated := some env.now
             currentBranch := branch
             shallow := some true }) },
       [.gitClone branch])

/-- C8 (counterexample): a cached entry whose `currentBranch` equals the
requested branch, with the default auto-sync policy enabled and no
recorded `lastUpdated`, makes `ensureRepoAvailable` run a fetch+reset
(`updateRepo`) on the working tree — the effect trace is not empty, so
"no git fetch or reset is performed" fails as stated. -/
theorem c8_counterexample :
    (recordGet
      ({ version := 1
         repos := [("a/b", { type := EntryType.cached, path := "/cache/a/b",
                             currentBranch := "main", lastAccessed := "T0" })]
         localIndex := [] } : Manifest).repos "a/b" =
      some { type := EntryType.cached, path := "/cache/a/b",
             currentBranch := "main", lastAccessed := "T0" }) ∧
    ((ensureRepoAvailable
        { now := "T1", nowMs := 0, dateMs := fun _ => none,
          cloneRes := .ok (), switchRes := .ok (), updateRes := .ok () }
        { version := 1
          repos := [("a/b", { type := EntryType.cached, path := "/cache/a/b",
                              currentBranch := "main", lastAccessed := "T0" })]
          localIndex := [] }
        "a/b" "main" "/cache" false true 24).2.2 = [GitEffect.gitUpdate]) := by
  constructor
  · rfl
  · rfl

/-- C8 (amended): re-requesting an already-cached repository at its
current branch performs no git fetch, reset, switch or clone and returns
the stored entry's path — unconditionally for the `repo_clone` tool
without `force`, and for `ensureRepoAvailable` provided the auto-sync
policy does not trigger (auto-sync disabled, or the entry's `lastUpdated`
is within the sync interval). -/
theorem c8_cached_same_branch_no_sync (env : EnsureEnv) (m : Manifest)
    (owner repo repoKey branch cacheDir : String)
    (useHttps autoSyncOnExplore : Bool) (autoSyncIntervalHours : Int)
    (e : RepoEntry) :
    (recordGet m.repos (owner ++ "/" ++ repo) = some e → e.type = .cached →
      e.currentBranch = branch →
      (repoCloneExecute env m owner repo branch cacheDir false).2.2 = [] ∧
      (repoCloneExecute env m owner repo branch cacheDir false).1 =
        .ok { path := e.path, branch := branch, alreadyExists := true }) ∧
    (recordGet m.repos repoKey = some e → e.type = .cached →
      e.currentBranch = branch →
      (autoSyncOnExplore = false ∨
        shouldSyncRepo env e.lastUpdated autoSyncIntervalHours = false) →
      (ensureRepoAvailable env m repoKey branch cacheDir useHttps
          autoSyncOnExplore autoSyncIntervalHours).2.2 = [] ∧
      (ensureRepoAvailable env m repoKey branch cacheDir useHttps
          autoSyncOnExplore autoSyncIntervalHours).1 =
        .ok { repoPath := e.path, branch := branch, type := .cached } ∧
      (ensureRepoAvailable env m repoKey branch cacheDir useHttps
          autoSyncOnExplore autoSyncIntervalHours).2.1 = m) := by
  constructor
  · intro hget _ hbr
    unfold repoCloneExecute
    rw [hget]
    simp [hbr]
  · intro hget hty hbr hsync
    have hcond : (autoSyncOnExplore &&
        shouldSyncRepo env e.lastUpdated autoSyncIntervalHours) = false := by
      rcases hsync with h | h <;> simp [h]
    unfold ensureRepoAvailable
    rw [hget]
    simp [hty, hbr, hcond]

/-- Witness for C8 (amended): a concrete cached entry on `main`,
re-requested at `main` with auto-sync disabled, yields an empty effect
trace and the stored path through both entry points. -/
theorem c8_cached_same_branch_no_sync_witness :
    ((repoCloneExecute
        { now := "T1", nowMs := 0, dateMs := fun _ => none,
          cloneRes := .ok (), switchRes := .ok (), updateRes := .ok () }
        { version := 1
          repos := [("a/b", { type := EntryType.cached, path := "/cache/a/b",
                              currentBranch := "main", lastAccessed := "T0" })]
          localIndex := [] }
        "a" "b" "main" "/cache" false).2.2 = [] ∧
     (repoCloneExecute
        { now := "T1", nowMs := 0, dateMs := fun _ => none,
          cloneRes := .ok (), switchRes := .ok (), updateRes := .ok () }
        { version := 1
          repos := [("a/b", { type := EntryType.cached, path := "/cache/a/b",
                              currentBranch := "main", lastAccessed := "T0" })]
          localIndex := [] }
        "a" "b" "main" "/cache" false).1 =
       .ok { path := "/cache/a/b", branch := "main", alreadyExists := true }) ∧
    ((ensureRepoAvailable
        { now := "T1", nowMs := 0, dateMs := fun _ => none,
          cloneRes := .ok (), switchRes := .ok (), updateRes := .ok () }
        { version := 1
          repos := [("a/b", { type := EntryType.cached, path := "/cache/a/b",
                              currentBranch := "main", lastAccessed := "T0" })]
          localIndex := [] }
        "a/b" "main" "/cache" false false 24).2.2 = []) :=
  ⟨(c8_cached_same_branch_no_sync
      { now := "T1", nowMs := 0, dateMs := fun _ => none,
        cloneRes := .ok (), switchRes := .ok (), updateRes := .ok () }
      { version := 1
        repos := [("a/b", { type := EntryType.cached, path := "/cache/a/b",
                            currentBranch := "main", lastAccessed := "T0" })]
        localIndex := [] }
      "a" "b" "a/b" "main" "/cache" false false 24
      { type := EntryType.cached, path := "/cache/a/b",
        currentBranch := "main", lastAccessed := "T0" }).1 rfl rfl rfl,
   ((c8_cached_same_branch_no_sync
      { now := "T1", nowMs := 0, dateMs := fun _ => none,
        cloneRes := .ok (), switchRes := .ok (), updateRes := .ok () }
      { version := 1
        repos := [("a/b", { type := EntryType.cached, path := "/cache/a/b",
                            currentBranch := "main", lastAccessed := "T0" })]
        localIndex := [] }
      "a" "b" "a/b" "main" "/cache" false false 24
      { type := EntryType.cached, path := "/cache/a/b",
        currentBranch := "main", lastAccessed := "T0" }).2 rfl rfl rfl
      (Or.inl rfl)).1⟩

/-! ## repo_remove (index.ts) -/

inductive RemoveOutcome where
  | notFound
  | unregisteredLocal
  | confirmationRequired
  | deletedCached
  | deletionFailed
deriving DecidableEq, Repr

/-- The `for (const [remote, path] of Object.entries(localIndex))` loop of
the local branch of `repo_remove`: delete the first mapping whose value is
the entry's path, then `break`. -/
def eraseFirstValue (idx : List (String × String)) (path : String) :
    List (String × String) :=
  match idx with
  | [] => []
  | (r, p) :: rest =>
    if p = path then rest else (r, p) :: eraseFirstValue rest path

/-- The `repo_remove` tool body (after spec parsing) from index.ts.
`fs` is the set of existing working-tree directories; `rmOk p` tells
whether `rm -rf p` succeeds.  A local entry is only unregistered; a cached
entry needs `confirm` before its working tree is deleted; when `rm` fails
the entry is still unregistered but the directory remains. -/
def repoRemoveExecute (m : Manifest) (fs : List String) (rmOk : String → Bool)
    (repoKey : String) (confirm : Bool) :
    Manifest × List String × RemoveOutcome :=
  match recordGet m.repos repoKey with
  | none => (m, fs, .notFound)
  | some entry =>
    if entry.type = .local then
      ({ m with repos := recordDelete m.repos repoKey
                localIndex := eraseFirstValue m.localIndex entry.path },
       fs, .unregisteredLocal)
    else if ¬confirm then
      (m, fs, .confirmationRequired)
    else if rmOk entry.path then
      ({ m with repos := recordDelete m.repos repoKey },
       fs.filter (fun p => p ≠ entry.path), .deletedCached)
    else
      ({ m with repos := recordDelete m.repos repoKey }, fs, .deletionFailed)

lemma repoRemoveExecute_some (m : Manifest) (fs : List String)
    (rmOk : String → Bool) (repoKey : String) (confirm : Bool) (e : RepoEntry)
    (h : recordGet m.repos repoKey = some e) :
    repoRemoveExecute m fs rmOk repoKey confirm =
      if e.type = .local then
        ({ m with repos := recordDelete m.repos repoKey
                  localIndex := eraseFirstValue m.localIndex e.path },
         fs, .unregisteredLocal)
      else if ¬confirm then
        (m, fs, .confirmationRequired)
      else if rmOk e.path then
        ({ m with repos := recordDelete m.repos repoKey },
         fs.filter (fun p => p ≠ e.path), .deletedCached)
      else
        ({ m with repos := recordDelete m.repos repoKey }, fs, .deletionFailed) := by
  unfold repoRemoveExecute
  rw [h]

lemma recordGet_recordDelete_self {α : Type} (l : List (String × α)) (k : String) :
    recordGet (recordDelete l k) k = none := by
  unfold recordGet recordDelete
  induction l with
  | nil => rfl
  | cons p rest ih =>
    rw [List.filter_cons]
    by_cases hp : p.1 = k
    · rw [if_neg (by simp [hp])]
      exact ih
    · rw [if_pos (by simp [hp])]
      obtain ⟨p1, p2⟩ := p
      simp only at hp
      have hbeq : (k == p1) = false := beq_eq_false_iff_ne.mpr (fun he => hp he.symm)
      show (match k == p1 with
            | true => some p2
            | false => List.lookup k (List.filter (fun p => decide (p.1 ≠ k)) rest)) = none
      rw [hbeq]
      exact ih

lemma recordGet_recordDelete_ne {α : Type} (l : List (String × α)) (k k' : String)
    (h : k' ≠ k) : recordGet (recordDelete l k) k' = recordGet l k' := by
  unfold recordGet recordDelete
  induction l with
  | nil => rfl
  | cons p rest ih =>
    rw [List.filter_cons]
    obtain ⟨p1, p2⟩ := p
    by_cases hp : p1 = k
    · rw [if_neg (by simp [hp])]
      rw [ih]
      have hbeq : (k' == p1) = false := beq_eq_false_iff_ne.mpr (fun he => h (he.trans hp))
      show List.lookup k' rest = (match k' == p1 with
            | true => some p2
            | false => List.lookup k' rest)
      rw [hbeq]
    · rw [if_pos (by simp [hp])]
      show (match k' == p1 with
            | true => some p2
            | false => List.lookup k' (List.filter (fun p => decide (p.1 ≠ k)) rest)) =
           (match k' == p1 with
            | true => some p2
            | false => List.lookup k' rest)
      cases hbeq : (k' == p1) with
      | true => rfl
      | false => exact ih

lemma eraseFirstValue_id (idx : List (String × String)) (path : String)
    (h : ∀ pr ∈ idx, pr.2 ≠ path) : eraseFirstValue idx path = idx := by
  induction idx with
  | nil => rfl
  | cons pr rest ih =>
    rw [eraseFirstValue, if_neg (h pr (by simp)), ih (fun q hq => h q (by simp [hq]))]

lemma eraseFirstValue_mem (idx : List (String × String)) (path : String)
    (pr : String × String) (hm : pr ∈ idx) (hne : pr.2 ≠ path) :
    pr ∈ eraseFirstValue idx path := by
  induction idx with
  | nil => simp at hm
  | cons q rest ih =>
    rcases List.mem_cons.mp hm with he | hm'
    · subst he
      rw [eraseFirstValue, if_neg hne]
      simp
    · rw [eraseFirstValue]
      by_cases hq : q.2 = path
      · simpa [hq] using hm'
      · simp [hq, ih hm']

lemma eraseFirstValue_length (idx : List (String × String)) (path : String) :
    (eraseFirstValue idx path).length = idx.length ∨
    (eraseFirstValue idx path).length + 1 = idx.length := by
  induction idx with
  | nil => left; rfl
  | cons q rest ih =>
    rw [eraseFirstValue]
    by_cases hq : q.2 = path
    · right
      simp [hq]
    · rcases ih with h | h
      · left
        simp [hq, h]
      · right
        simp [hq]
        omega

/-- C9: removing a "local" entry only unregisters it — the working trees
on disk are untouched, the entry's key is gone, non-matching localIndex
mappings survive and at most the one mapping to the entry's path is
dropped; removing a "cached" entry without `confirm` changes nothing and
signals confirmation-required; with `confirm` (and `rm` succeeding) the
working tree directory is deleted from disk and the entry removed. -/
theorem c9_repo_remove (m : Manifest) (fs : List String) (rmOk : String → Bool)
    (repoKey : String) (e : RepoEntry) (hget : recordGet m.repos repoKey = some e) :
    (e.type = .local →
      (repoRemoveExecute m fs rmOk repoKey false).2.1 = fs ∧
      (repoRemoveExecute m fs rmOk repoKey false).2.2 = .unregisteredLocal ∧
      recordGet (repoRemoveExecute m fs rmOk repoKey false).1.repos repoKey = none ∧
      (∀ pr ∈ m.localIndex, pr.2 ≠ e.path →
        pr ∈ (repoRemoveExecute m fs rmOk repoKey false).1.localIndex) ∧
      ((∀ pr ∈ m.localIndex, pr.2 ≠ e.path) →
        (repoRemoveExecute m fs rmOk repoKey false).1.localIndex = m.localIndex) ∧
      ((repoRemoveExecute m fs rmOk repoKey false).1.localIndex.length =
          m.localIndex.length ∨
       (repoRemoveExecute m fs rmOk repoKey false).1.localIndex.length + 1 =
          m.localIndex.length)) ∧
    (e.type = .cached →
      (repoRemoveExecute m fs rmOk repoKey false) = (m, fs, .confirmationRequired)) ∧
    (e.type = .cached → rmOk e.path = true →
      (repoRemoveExecute m fs rmOk repoKey true).2.1 =
        fs.filter (fun p => p ≠ e.path) ∧
      (repoRemoveExecute m fs rmOk repoKey true).2.2 = .deletedCached ∧
      recordGet (repoRemoveExecute m fs rmOk repoKey true).1.repos repoKey = none) := by
  refine ⟨?_, ?_, ?_⟩
  · intro hty
    rw [repoRemoveExecute_some m fs rmOk repoKey false e hget, if_pos hty]
    exact ⟨rfl, rfl, recordGet_recordDelete_self m.repos repoKey,
      fun pr hm hne => eraseFirstValue_mem m.localIndex e.path pr hm hne,
      fun h => eraseFirstValue_id m.localIndex e.path h,
      eraseFirstValue_length m.localIndex e.path⟩
  · intro hty
    rw [repoRemoveExecute_some m fs rmOk repoKey false e hget,
      if_neg (by rw [hty]; decide), if_pos (by decide)]
  · intro hty hrm
    rw [repoRemoveExecute_some m fs rmOk repoKey true e hget,
      if_neg (by rw [hty]; decide), if_neg (by decide), if_pos hrm]
    exact ⟨rfl, rfl, recordGet_recordDelete_self m.repos repoKey⟩

/-- Witness for C9: a manifest with one local and one cached entry —
unregistering the local entry keeps the disk intact, removing the cached
entry without confirm changes nothing, and with confirm the cached tree is
deleted. -/
theorem c9_repo_remove_witness :
    (let m : Manifest :=
      { version := 1
        repos := [("me/tools", { type := EntryType.local, path := "/home/me/tools",
                                 currentBranch := "main", lastAccessed := "T0" }),
                  ("acme/widgets", { type := EntryType.cached, path := "/cache/acme/widgets",
                                     currentBranch := "main", lastAccessed := "T0" })]
        localIndex := [("git@github.com:me/tools.git", "/home/me/tools")] }
     let fs := ["/home/me/tools", "/cache/acme/widgets"]
     (repoRemoveExecute m fs (fun _ => true) "me/tools" false).2.1 = fs ∧
     (repoRemoveExecute m fs (fun _ => true) "acme/widgets" false) =
       (m, fs, .confirmationRequired) ∧
     (repoRemoveExecute m fs (fun _ => true) "acme/widgets" true).2.1 =
       ["/home/me/tools"]) := by
  refine ⟨?_, ?_, ?_⟩
  · exact ((c9_repo_remove
      { version := 1
        repos := [("me/tools", { type := EntryType.local, path := "/home/me/tools",
                                 currentBranch := "main", lastAccessed := "T0" }),
                  ("acme/widgets", { type := EntryType.cached, path := "/cache/acme/widgets",
                                     currentBranch := "main", lastAccessed := "T0" })]
        localIndex := [("git@github.com:me/tools.git", "/home/me/tools")] }
      ["/home/me/tools", "/cache/acme/widgets"] (fun _ => true) "me/tools"
      { type := EntryType.local, path := "/home/me/tools",
        currentBranch := "main", lastAccessed := "T0" } rfl).1 rfl).1
  · exact (c9_repo_remove
      { version := 1
        repos := [("me/tools", { type := EntryType.local, path := "/home/me/tools",
                                 currentBranch := "main", lastAccessed := "T0" }),
                  ("acme/widgets", { type := EntryType.cached, path := "/cache/acme/widgets",
                                     currentBranch := "main", lastAccessed := "T0" })]
        localIndex := [("git@github.com:me/tools.git", "/home/me/tools")] }
      ["/home/me/tools", "/cache/acme/widgets"] (fun _ => true) "acme/widgets"
      { type := EntryType.cached, path := "/cache/acme/widgets",
        currentBranch := "main", lastAccessed := "T0" } rfl).2.1 rfl
  · have h := ((c9_repo_remove
      { version := 1
        repos := [("me/tools", { type := EntryType.local, path := "/home/me/tools",
                                 currentBranch := "main", lastAccessed := "T0" }),
                  ("acme/widgets", { type := EntryType.cached, path := "/cache/acme/widgets",
                                     currentBranch := "main", lastAccessed := "T0" })]
        localIndex := [("git@github.com:me/tools.git", "/home/me/tools")] }
      ["/home/me/tools", "/cache/acme/widgets"] (fun _ => true) "acme/widgets"
      { type := EntryType.cached, path := "/cache/acme/widgets",
        currentBranch := "main", lastAccessed := "T0" } rfl).2.2 rfl rfl).1
    rw [h]
    decide

/-! ## Startup cleanup (index.ts runCleanup; part_004 repo_cleanup) -/

/-- Environment of a cleanup run. -/
structure CleanupEnv where
  nowMs : Int
  dateMs : String → Option Int
  rmOk : String → Bool

def cutoffMsOf (env : CleanupEnv) (maxAgeDays : Int) : Int :=
  env.nowMs - maxAgeDays * 24 * 60 * 60 * 1000

/-- The staleness test of the cleanup scan: cached entries whose
`lastAccessed` parses and is older than the cutoff (`NaN < cutoff` is
false in JS, so an unparseable timestamp never counts as stale). -/
def staleCachedB (env : CleanupEnv) (cutoffMs : Int) (e : RepoEntry) : Bool :=
  decide (e.type = .cached) &&
    (match env.dateMs e.lastAccessed with
     | some t => decide (t < cutoffMs)
     | none => false)

def staleKeysOf (env : CleanupEnv) (maxAgeDays : Int) (m : Manifest) : List String :=
  (m.repos.filter (fun p => staleCachedB env (cutoffMsOf env maxAgeDays) p.2)).map
    Prod.fst

/-- The locked deletion loop of `runCleanup`: re-read each stale key from
the (sequentially unchanged, then progressively updated) manifest, skip
vanished or non-cached entries, `rm -rf` the path and drop the entry; an
`rm` failure keeps the entry. -/
def cleanupLoop (rmOk : String → Bool) :
    List String → Manifest → List String → Manifest × List String
  | [], m, fs => (m, fs)
  | key :: rest, m, fs =>
    match recordGet m.repos key with
    | none => cleanupLoop rmOk rest m fs
    | some entry =>
      if entry.type = .cached then
        if rmOk entry.path then
          cleanupLoop rmOk rest { m with repos := recordDelete m.repos key }
            (fs.filter (fun p => p ≠ entry.path))
        else cleanupLoop rmOk rest m fs
      else cleanupLoop rmOk rest m fs

/-- `runCleanup` from index.ts: scan for stale cached entries, return
early when none, otherwise delete them under the manifest lock. -/
def runCleanup (env : CleanupEnv) (maxAgeDays : Int) (m : Manifest)
    (fs : List String) : Manifest × List String :=
  if (staleKeysOf env maxAgeDays m).isEmpty then (m, fs)
  else cleanupLoop env.rmOk (staleKeysOf env maxAgeDays m) m fs

def staleReposOf (env : CleanupEnv) (maxAgeDays : Int) (m : Manifest) :
    List (String × String) :=
  (m.repos.filter (fun p => staleCachedB env (cutoffMsOf env maxAgeDays) p.2)).map
    (fun p => (p.1, p.2.path))

/-- The locked deletion loop of the earlier plugin's `repo_cleanup` tool:
iterate the captured `{key, path}` records, `rm -rf` and drop the entry,
counting failures. -/
def repoCleanupLoop (rmOk : String → Bool) :
    List (String × String) → Manifest → List String → Manifest × List String
  | [], m, fs => (m, fs)
  | (key, path) :: rest, m, fs =>
    if rmOk path then
      repoCleanupLoop rmOk rest { m with repos := recordDelete m.repos key }
        (fs.filter (fun p => p ≠ path))
    else repoCleanupLoop rmOk rest m fs

/-- The `repo_cleanup` tool body from the earlier plugin version
(part_004): scan, report when nothing is stale, preview under `dryRun`,
otherwise delete under the manifest lock. -/
def repoCleanupExecute (env : CleanupEnv) (maxAgeDays : Int) (dryRun : Bool)
    (m : Manifest) (fs : List String) : Manifest × List String :=
  if (staleReposOf env maxAgeDays m).isEmpty then (m, fs)
  else if dryRun then (m, fs)
  else repoCleanupLoop env.rmOk (staleReposOf env maxAgeDays m) m fs

lemma recordGet_mem {α : Type} (l : List (String × α)) (k : String) (v : α)
    (h : recordGet l k = some v) : (k, v) ∈ l := by
  induction l with
  | nil => exact absurd h (by simp [recordGet])
  | cons p rest ih =>
    obtain ⟨p1, p2⟩ := p
    unfold recordGet at h
    cases hbeq : (k == p1) with
    | true =>
      rw [List.lookup_cons, hbeq] at h
      injection h with h'
      subst h'
      have : k = p1 := by simpa using hbeq
      subst this
      simp
    | false =>
      rw [List.lookup_cons, hbeq] at h
      exact List.mem_cons_of_mem _ (ih h)

lemma mem_recordGet {α : Type} (l : List (String × α)) (k : String) (v : α)
    (hN : (l.map Prod.fst).Nodup) (h : (k, v) ∈ l) : recordGet l k = some v := by
  induction l with
  | nil => simp at h
  | cons p rest ih =>
    obtain ⟨p1, p2⟩ := p
    simp only [List.map_cons, List.nodup_cons] at hN
    rcases List.mem_cons.mp h with he | hm
    · injection he with h1 h2
      subst h1
      subst h2
      unfold recordGet
      rw [List.lookup_cons]
      simp
    · have hk : k ≠ p1 := by
        intro he
        subst he
        exact hN.1 (by simpa using List.mem_map_of_mem Prod.fst hm)
      unfold recordGet
      rw [List.lookup_cons]
      have : (k == p1) = false := beq_eq_false_iff_ne.mpr hk
      rw [this]
      exact ih hN.2 hm

lemma cleanupLoop_preserves (rmOk : String → Bool) :
    ∀ (keys : List String) (m : Manifest) (fs : List String) (k : String),
    k ∉ keys →
    recordGet (cleanupLoop rmOk keys m fs).1.repos k = recordGet m.repos k := by
  intro keys
  induction keys with
  | nil => intro m fs k _; rfl
  | cons key rest ih =>
    intro m fs k hk
    simp only [List.mem_cons, not_or] at hk
    cases hget : recordGet m.repos key with
    | none =>
      simp only [cleanupLoop, hget]
      exact ih m fs k hk.2
    | some entry =>
      simp only [cleanupLoop, hget]
      by_cases hty : entry.type = EntryType.cached
      · rw [if_pos hty]
        by_cases hrm : rmOk entry.path = true
        · rw [if_pos hrm]
          rw [ih _ _ k hk.2]
          exact recordGet_recordDelete_ne m.repos key k hk.1
        · rw [if_neg hrm]
          exact ih m fs k hk.2
      · rw [if_neg hty]
        exact ih m fs k hk.2

lemma cleanupLoop_fs_removed (rmOk : String → Bool) :
    ∀ (keys : List String) (m : Manifest) (fs : List String) (p : String),
    p ∈ fs → p ∉ (cleanupLoop rmOk keys m fs).2 →
    ∃ k ∈ keys, ∃ e, recordGet m.repos k = some e ∧ e.type = .cached ∧
      e.path = p ∧ rmOk p = true := by
  intro keys
  induction keys with
  | nil =>
    intro m fs p hin hout
    exact absurd hin hout
  | cons key rest ih =>
    intro m fs p hin hout
    cases hget : recordGet m.repos key with
    | none =>
      simp only [cleanupLoop, hget] at hout
      obtain ⟨k, hk, e, he⟩ := ih m fs p hin hout
      exact ⟨k, by simp [hk], e, he⟩
    | some entry =>
      simp only [cleanupLoop, hget] at hout
      by_cases hty : entry.type = EntryType.cached
      · rw [if_pos hty] at hout
        by_cases hrm : rmOk entry.path = true
        · rw [if_pos hrm] at hout
          by_cases hp : p = entry.path
          · exact ⟨key, by simp, entry, hget, hty, hp.symm, hp ▸ hrm⟩
          · have hin' : p ∈ fs.filter (fun q => q ≠ entry.path) := by
              simp [List.mem_filter, hin, hp]
            obtain ⟨k, hk, e, he1, he2, he3, he4⟩ := ih _ _ p hin' hout
            have hkne : k ≠ key := by
              intro he
              subst he
              rw [recordGet_recordDelete_self] at he1
              exact absurd he1 (by simp)
            rw [recordGet_recordDelete_ne m.repos key k hkne] at he1
            exact ⟨k, by simp [hk], e, he1, he2, he3, he4⟩
        · rw [if_neg hrm] at hout
          obtain ⟨k, hk, e, he⟩ := ih m fs p hin hout
          exact ⟨k, by simp [hk], e, he⟩
      · rw [if_neg hty] at hout
        obtain ⟨k, hk, e, he⟩ := ih m fs p hin hout
        exact ⟨k, by simp [hk], e, he⟩

lemma repoCleanupLoop_preserves (rmOk : String → Bool) :
    ∀ (pairs : List (String × String)) (m : Manifest) (fs : List String) (k : String),
    k ∉ pairs.map Prod.fst →
    recordGet (repoCleanupLoop rmOk pairs m fs).1.repos k = recordGet m.repos k := by
  intro pairs
  induction pairs with
  | nil => intro m fs k _; rfl
  | cons pr rest ih =>
    intro m fs k hk
    obtain ⟨key, path⟩ := pr
    simp only [List.map_cons, List.mem_cons, not_or] at hk
    rw [repoCleanupLoop]
    by_cases hrm : rmOk path = true
    · rw [if_pos hrm, ih _ _ k hk.2]
      exact recordGet_recordDelete_ne m.repos key k hk.1
    · rw [if_neg hrm]
      exact ih m fs k hk.2

lemma repoCleanupLoop_fs_removed (rmOk : String → Bool) :
    ∀ (pairs : List (String × String)) (m : Manifest) (fs : List String) (p : String),
    p ∈ fs → p ∉ (repoCleanupLoop rmOk pairs m fs).2 →
    ∃ pr ∈ pairs, pr.2 = p ∧ rmOk p = true := by
  intro pairs
  induction pairs with
  | nil =>
    intro m fs p hin hout
    exact absurd hin hout
  | cons pr rest ih =>
    intro m fs p hin hout
    obtain ⟨key, path⟩ := pr
    rw [repoCleanupLoop] at hout
    by_cases hrm : rmOk path = true
    · rw [if_pos hrm] at hout
      by_cases hp : p = path
      · exact ⟨(key, path), by simp, hp.symm, hp ▸ hrm⟩
      · have hin' : p ∈ fs.filter (fun q => q ≠ path) := by
          simp [List.mem_filter, hin, hp]
        obtain ⟨q, hq, hq2, hq3⟩ := ih _ _ p hin' hout
        exact ⟨q, by simp [hq], hq2, hq3⟩
    · rw [if_neg hrm] at hout
      obtain ⟨q, hq, hq2, hq3⟩ := ih m fs p hin hout
      exact ⟨q, by simp [hq], hq2, hq3⟩

lemma mem_staleKeysOf (env : CleanupEnv) (maxAgeDays : Int) (m : Manifest)
    (k : String) :
    k ∈ staleKeysOf env maxAgeDays m ↔
      ∃ e, (k, e) ∈ m.repos ∧
        staleCachedB env (cutoffMsOf env maxAgeDays) e = true := by
  unfold staleKeysOf
  simp only [List.mem_map, List.mem_filter]
  constructor
  · rintro ⟨⟨k', e⟩, ⟨hm, hs⟩, he⟩
    cases he
    exact ⟨e, hm, hs⟩
  · rintro ⟨e, hm, hs⟩
    exact ⟨(k, e), ⟨hm, hs⟩, rfl⟩

lemma staleReposOf_map_fst (env : CleanupEnv) (maxAgeDays : Int) (m : Manifest) :
    (staleReposOf env maxAgeDays m).map Prod.fst = staleKeysOf env maxAgeDays m := by
  unfold staleReposOf staleKeysOf
  rw [List.map_map]
  rfl

lemma mem_staleReposOf (env : CleanupEnv) (maxAgeDays : Int) (m : Manifest)
    (pr : String × String) :
    pr ∈ staleReposOf env maxAgeDays m ↔
      ∃ e, (pr.1, e) ∈ m.repos ∧
        staleCachedB env (cutoffMsOf env maxAgeDays) e = true ∧ pr.2 = e.path := by
  unfold staleReposOf
  simp only [List.mem_map, List.mem_filter]
  constructor
  · rintro ⟨⟨k', e⟩, ⟨hm, hs⟩, he⟩
    cases he
    exact ⟨e, hm, hs, rfl⟩
  · rintro ⟨e, hm, hs, hp⟩
    obtain ⟨p1, p2⟩ := pr
    simp only at hm hp
    subst hp
    exact ⟨(p1, e), ⟨hm, hs⟩, rfl⟩

lemma staleCachedB_cached (env : CleanupEnv) (cutoffMs : Int) (e : RepoEntry)
    (h : staleCachedB env cutoffMs e = true) : e.type = .cached := by
  unfold staleCachedB at h
  simp only [Bool.and_eq_true, decide_eq_true_eq] at h
  exact h.1

/-- C10: the startup cleanup (`runCleanup`) and the earlier plugin's
`repo_cleanup` tool delete a working tree from disk and drop its manifest
entry only for entries that are cached and whose `lastAccessed` is older
than the age cutoff; entries of type "local" keep their manifest record
unchanged, and every directory that disappears from disk is the path of
some stale cached entry.  `repo_cleanup` with `dryRun` deletes nothing. -/
theorem c10_cleanup_only_stale_cached (env : CleanupEnv) (maxAgeDays : Int)
    (m : Manifest) (fs : List String) (hN : (m.repos.map Prod.fst).Nodup) :
    (∀ k e, recordGet m.repos k = some e → e.type = .local →
      recordGet (runCleanup env maxAgeDays m fs).1.repos k = some e) ∧
    (∀ k e, recordGet m.repos k = some e →
      recordGet (runCleanup env maxAgeDays m fs).1.repos k = none →
      e.type = .cached ∧ staleCachedB env (cutoffMsOf env maxAgeDays) e = true) ∧
    (∀ p ∈ fs, p ∉ (runCleanup env maxAgeDays m fs).2 →
      ∃ k e, recordGet m.repos k = some e ∧ e.type = .cached ∧
        staleCachedB env (cutoffMsOf env maxAgeDays) e = true ∧ e.path = p) ∧
    (∀ k e, recordGet m.repos k = some e → e.type = .local →
      recordGet (repoCleanupExecute env maxAgeDays false m fs).1.repos k = some e) ∧
    (∀ k e, recordGet m.repos k = some e →
      recordGet (repoCleanupExecute env maxAgeDays false m fs).1.repos k = none →
      e.type = .cached ∧ staleCachedB env (cutoffMsOf env maxAgeDays) e = true) ∧
    (∀ p ∈ fs, p ∉ (repoCleanupExecute env maxAgeDays false m fs).2 →
      ∃ k e, recordGet m.repos k = some e ∧ e.type = .cached ∧
        staleCachedB env (cutoffMsOf env maxAgeDays) e = true ∧ e.path = p) ∧
    repoCleanupExecute env maxAgeDays true m fs = (m, fs) := by
  have hnotstale : ∀ k e, recordGet m.repos k = some e → e.type = .local →
      k ∉ staleKeysOf env maxAgeDays m := by
    intro k e hget hty hmem
    obtain ⟨e', hm', hs'⟩ := (mem_staleKeysOf env maxAgeDays m k).mp hmem
    have := mem_recordGet m.repos k e' hN hm'
    rw [hget] at this
    injection this with this
    subst this
    have hc := staleCachedB_cached env _ _ hs'
    rw [hty] at hc
    exact absurd hc (by decide)
  have hstale_of : ∀ k, k ∈ staleKeysOf env maxAgeDays m →
      ∀ e, recordGet m.repos k = some e →
      e.type = .cached ∧ staleCachedB env (cutoffMsOf env maxAgeDays) e = true := by
    intro k hmem e hget
    obtain ⟨e', hm', hs'⟩ := (mem_staleKeysOf env maxAgeDays m k).mp hmem
    have := mem_recordGet m.repos k e' hN hm'
    rw [hget] at this
    injection this with this
    subst this
    exact ⟨staleCachedB_cached env _ _ hs', hs'⟩
  refine ⟨?_, ?_, ?_, ?_, ?_, ?_, ?_⟩
  · intro k e hget hty
    unfold runCleanup
    by_cases hs : (staleKeysOf env maxAgeDays m).isEmpty = true
    · rw [if_pos hs]
      exact hget
    · rw [if_neg hs]
      rw [cleanupLoop_preserves env.rmOk _ m fs k (hnotstale k e hget hty)]
      exact hget
  · intro k e hget hnone
    unfold runCleanup at hnone
    by_cases hs : (staleKeysOf env maxAgeDays m).isEmpty = true
    · rw [if_pos hs] at hnone
      rw [hget] at hnone
      exact absurd hnone (by simp)
    · rw [if_neg hs] at hnone
      by_cases hk : k ∈ staleKeysOf env maxAgeDays m
      · exact hstale_of k hk e hget
      · rw [cleanupLoop_preserves env.rmOk _ m fs k hk, hget] at hnone
        exact absurd hnone (by simp)
  · intro p hin hout
    unfold runCleanup at hout
    by_cases hs : (staleKeysOf env maxAgeDays m).isEmpty = true
    · rw [if_pos hs] at hout
      exact absurd hin hout
    · rw [if_neg hs] at hout
      obtain ⟨k, hk, e, hget, hty, hpath, _⟩ :=
        cleanupLoop_fs_removed env.rmOk _ m fs p hin hout
      exact ⟨k, e, hget, hty, (hstale_of k hk e hget).2, hpath⟩
  · intro k e hget hty
    unfold repoCleanupExecute
    by_cases hs : (staleReposOf env maxAgeDays m).isEmpty = true
    · rw [if_pos hs]
      exact hget
    · rw [if_neg hs, if_neg (by decide)]
      rw [repoCleanupLoop_preserves env.rmOk _ m fs k
        (by rw [staleReposOf_map_fst]; exact hnotstale k e hget hty)]
      exact hget
  · intro k e hget hnone
    unfold repoCleanupExecute at hnone
    by_cases hs : (staleReposOf env maxAgeDays m).isEmpty = true
    · rw [if_pos hs] at hnone
      rw [hget] at hnone
      exact absurd hnone (by simp)
    · rw [if_neg hs, if_neg (by decide)] at hnone
      by_cases hk : k ∈ staleKeysOf env maxAgeDays m
      · exact hstale_of k hk e hget
      · rw [repoCleanupLoop_preserves env.rmOk _ m fs k
          (by rw [staleReposOf_map_fst]; exact hk), hget] at hnone
        exact absurd hnone (by simp)
  · intro p hin hout
    unfold repoCleanupExecute at hout
    by_cases hs : (staleReposOf env maxAgeDays m).isEmpty = true
    · rw [if_pos hs] at hout
      exact absurd hin hout
    · rw [if_neg hs, if_neg (by decide)] at hout
      obtain ⟨pr, hpr, hp2, _⟩ :=
        repoCleanupLoop_fs_removed env.rmOk _ m fs p hin hout
      obtain ⟨e, hm, hsB, hpath⟩ := (mem_staleReposOf env maxAgeDays m pr).mp hpr
      refine ⟨pr.1, e, mem_recordGet m.repos pr.1 e hN hm,
        staleCachedB_cached env _ e hsB, hsB, ?_⟩
      rw [← hpath, hp2]
  · unfold repoCleanupExecute
    by_cases hs : (staleReposOf env maxAgeDays m).isEmpty = true
    · rw [if_pos hs]
    · rw [if_neg hs, if_pos rfl]

/-- Witness for C10: with a 100-day clock, a 30-day cutoff, one local
entry and one cached entry last accessed at time 0, cleanup removes
exactly the cached entry and its directory, leaving the local entry and
its files. -/
theorem c10_cleanup_only_stale_cached_witness :
    (recordGet
      (runCleanup
        { nowMs := 8640000000, dateMs := fun s => if s = "OLD" then some 0 else none,
          rmOk := fun _ => true } 30
        { version := 1
          repos := [("me/tools", { type := EntryType.local, path := "/home/me/tools",
                                   currentBranch := "main", lastAccessed := "T0" }),
                    ("acme/widgets", { type := EntryType.cached,
                                       path := "/cache/acme/widgets",
                                       currentBranch := "main", lastAccessed := "OLD" })]
          localIndex := [] }
        ["/home/me/tools", "/cache/acme/widgets"]).1.repos "me/tools" =
      some { type := EntryType.local, path := "/home/me/tools",
             currentBranch := "main", lastAccessed := "T0" }) ∧
    (recordGet
      (runCleanup
        { nowMs := 8640000000, dateMs := fun s => if s = "OLD" then some 0 else none,
          rmOk := fun _ => true } 30
        { version := 1
          repos := [("me/tools", { type := EntryType.local, path := "/home/me/tools",
                                   currentBranch := "main", lastAccessed := "T0" }),
                    ("acme/widgets", { type := EntryType.cached,
                                       path := "/cache/acme/widgets",
                                       currentBranch := "main", lastAccessed := "OLD" })]
          localIndex := [] }
        ["/home/me/tools", "/cache/acme/widgets"]).1.repos "acme/widgets" = none) ∧
    ((runCleanup
        { nowMs := 8640000000, dateMs := fun s => if s = "OLD" then some 0 else none,
          rmOk := fun _ => true } 30
        { version := 1
          repos := [("me/tools", { type := EntryType.local, path := "/home/me/tools",
                                   currentBranch := "main", lastAccessed := "T0" }),
                    ("acme/widgets", { type := EntryType.cached,
                                       path := "/cache/acme/widgets",
                                       currentBranch := "main", lastAccessed := "OLD" })]
          localIndex := [] }
        ["/home/me/tools", "/cache/acme/widgets"]).2 = ["/home/me/tools"]) := by
  refine ⟨?_, by decide, by decide⟩
  exact (c10_cleanup_only_stale_cached
    { nowMs := 8640000000, dateMs := fun s => if s = "OLD" then some 0 else none,
      rmOk := fun _ => true } 30
    { version := 1
      repos := [("me/tools", { type := EntryType.local, path := "/home/me/tools",
                               currentBranch := "main", lastAccessed := "T0" }),
                ("acme/widgets", { type := EntryType.cached,
                                   path := "/cache/acme/widgets",
                                   currentBranch := "main", lastAccessed := "OLD" })]
      localIndex := [] }
    ["/home/me/tools", "/cache/acme/widgets"] (by decide)).1 "me/tools"
    { type := EntryType.local, path := "/home/me/tools",
      currentBranch := "main", lastAccessed := "T0" } rfl rfl

end OpencodeRepos
